import Mathlib

/-!
Verification of the UTXO-ledger simulator (validator, mempool, transaction
builder, miner) against its natural-language specification.

The repository contains two parallel implementations of the same engine:
* `src/src` — a console application (`utxo_manager.py`, `validator.py`,
  `mempool.py`, `transaction.py`, `block.py`), modelled below in
  namespace `Sim`;
* `src/api` — an HTTP service (`api/logic.py` over `api/database.py`'s
  in-memory backend), modelled below in namespace `Api`.

Monetary amounts are Python floats in the source; the engine only adds,
subtracts and compares them, so they are modelled as integers (any
linearly ordered additive group is faithful to every behaviour the
claims mention).  Python
dicts are modelled as insertion-ordered association lists: overwriting a
key keeps its position, `.values()` iterates in insertion order, which is
what `get_utxos` / `get_utxos_for_owner` expose to the coin selector.
The pydantic `TransactionModel` fields `timestamp` and `status` are never
read by any modelled computation, so transactions are modelled by
`tx_id`, `inputs`, `outputs` alone.  Randomly generated transaction ids
(`tx_{timestamp}_{random}`) are modelled by passing the generated id as
an explicit argument.
-/

/-- A UTXO key `(tx_id, output_index)`. -/
abbrev Key := String × Nat

/-- `TransactionInput` / the input dicts of `transaction.py`:
`{"prev_tx": …, "index": …, "owner": …}`. -/
structure TxInput where
  prev_tx : String
  index : Nat
  owner : String
deriving DecidableEq, Repr

/-- The UTXO key referenced by an input. -/
def TxInput.key (i : TxInput) : Key := (i.prev_tx, i.index)

/-- `TransactionOutput` / the output dicts: `{"amount": …, "address": …}`. -/
structure TxOutput where
  amount : ℤ
  address : String
deriving DecidableEq, Repr

/-- A transaction: id plus ordered inputs and outputs. -/
structure Transaction where
  tx_id : String
  inputs : List TxInput
  outputs : List TxOutput
deriving DecidableEq, Repr

/-- The input keys of a transaction, in order. -/
def Transaction.inputKeys (tx : Transaction) : List Key :=
  tx.inputs.map TxInput.key

/-- The value stored for a UTXO key: `{"amount": …, "owner": …}`. -/
structure UTXOData where
  amount : ℤ
  owner : String
deriving DecidableEq, Repr

/-- The UTXO set, `utxo_set : dict[(tx_id, index) -> {amount, owner}]`,
modelled as an insertion-ordered association list. -/
abbrev Store := List (Key × UTXOData)

namespace Store

/-- `UTXOManager.add_utxo` / `InMemoryDatabase.add_utxo`: dict assignment —
an existing key is overwritten in place, a new key is appended. -/
def addUtxo (s : Store) (k : Key) (d : UTXOData) : Store :=
  match s with
  | [] => [(k, d)]
  | (k', d') :: rest =>
    if k' = k then (k, d) :: rest else (k', d') :: addUtxo rest k d

/-- `UTXOManager.remove_utxo` / `InMemoryDatabase.remove_utxo`: dict `del`,
a no-op when the key is absent. -/
def removeUtxo (s : Store) (k : Key) : Store :=
  s.filter (fun e => e.1 ≠ k)

/-- `UTXOManager.get_utxo` / `InMemoryDatabase.get_utxo`: dict `.get`. -/
def getUtxo (s : Store) (k : Key) : Option UTXOData :=
  (s.find? (fun e => e.1 = k)).map Prod.snd

/-- `UTXOManager.exists`: `key in utxo_set`. -/
def existsUtxo (s : Store) (k : Key) : Bool :=
  (getUtxo s k).isSome

/-- `UTXOManager.get_utxos_for_owner` / `InMemoryDatabase.get_utxos(owner)`:
the entries owned by `owner`, in dict insertion order. -/
def forOwner (s : Store) (owner : String) : Store :=
  s.filter (fun e => e.2.owner = owner)

/-- `UTXOManager.get_total_supply`: the sum of all stored amounts. -/
def utxoSum (s : Store) : ℤ :=
  (s.map (fun e => e.2.amount)).sum

/-- The keys of the store, in insertion order. -/
def keys (s : Store) : List Key := s.map Prod.fst

/-- The input-burning loop of both miners: delete each input's UTXO. -/
def burnInputs (s : Store) (tx : Transaction) : Store :=
  tx.inputs.foldl (fun s i => removeUtxo s i.key) s

/-- The output-minting loop of both miners: create one UTXO per output,
keyed `(tx_id, output_index)`. -/
def mintOutputs (s : Store) (tx : Transaction) : Store :=
  (tx.outputs.enum).foldl
    (fun s oi => addUtxo s (tx.tx_id, oi.1) ⟨oi.2.amount, oi.2.address⟩) s

/-- A store built through `add_utxo`/`remove_utxo` has pairwise distinct
keys (it models a Python dict). -/
def WFKeys (s : Store) : Prop := (keys s).Nodup

instance : DecidablePred WFKeys := fun s =>
  inferInstanceAs (Decidable ((keys s).Nodup))

end Store

namespace Sim

/-- Rejection reasons of `TransactionValidator.validate_transaction` and
`BitcoinService.validate_transaction`, one constructor per early-return
message, carrying the data interpolated into that message. -/
inductive Reason where
  | negativeOutput (amount : ℤ)
  | duplicateInput (k : Key)
  | missingUtxo (k : Key)
  | ownerMismatch (expected got : String)
  | mempoolConflict (k : Key) (conflicting : Option String)
  | insufficientInput (totalIn totalOut : ℤ)
deriving DecidableEq, Repr

/-- Result of validation: the `(is_valid, message)` pair, with the success
message carrying the computed fee. -/
inductive Verdict where
  | valid (fee : ℤ)
  | invalid (r : Reason)
deriving DecidableEq, Repr

/-- Rule 4 loop of `validate_transaction`: the amount of the first
negative output, if any. -/
def findNegOutput (outs : List TxOutput) : Option ℤ :=
  (outs.find? (fun o => o.amount < 0)).map TxOutput.amount

/-- Rule 2 loop of `validate_transaction`: scan the inputs with a `seen`
set, returning the first key that repeats. -/
def firstDup (inputs : List TxInput) (seen : List Key) : Option Key :=
  match inputs with
  | [] => none
  | i :: rest =>
    if i.key ∈ seen then some i.key else firstDup rest (i.key :: seen)

/-- Rule 1/ownership loop of `validate_transaction`: check each input in
order for existence then owner match, accumulating `total_input`. -/
def checkInputs (um : Store) (inputs : List TxInput) (acc : ℤ) :
    Except Reason ℤ :=
  match inputs with
  | [] => .ok acc
  | i :: rest =>
    match Store.getUtxo um i.key with
    | none => .error (.missingUtxo i.key)
    | some u =>
      if u.owner ≠ i.owner then .error (.ownerMismatch u.owner i.owner)
      else checkInputs um rest (acc + u.amount)

/-- Rule 5 loop: the first input key already claimed in the mempool. -/
def firstConflict (inputs : List TxInput) (spent : List Key) : Option Key :=
  (inputs.find? (fun i => i.key ∈ spent)).map TxInput.key

/-- Sum of the output amounts. -/
def totalOutput (tx : Transaction) : ℤ :=
  (tx.outputs.map TxOutput.amount).sum

/-- The `Mempool` object of `mempool.py`: resident transactions in
insertion order, the `spent_utxos` conflict set, and the capacity. -/
structure Mempool where
  transactions : List Transaction
  spentUtxos : List Key
  maxSize : Nat
deriving DecidableEq, Repr

/-- The id reported by the validator's mempool-conflict scan: the scan
assigns `conflicting_tx` for every pending transaction claiming the key
(breaking only the inner loop), so the last claimant's id survives. -/
def conflictingId (m : Mempool) (k : Key) : Option String :=
  ((m.transactions.filter (fun t => k ∈ t.inputKeys)).getLast?).map
    Transaction.tx_id

/-- The shared staged structure of both validators: negative outputs,
intra-transaction duplicate inputs, input existence and ownership
(accumulating `total_input`), conflict against the given claimed-key
set (the conflict message payload is produced by `cid`), and finally
`total_input >= total_output`. -/
def validateCore (tx : Transaction) (um : Store) (spent : List Key)
    (cid : Key → Option String) : Verdict :=
  match findNegOutput tx.outputs with
  | some a => .invalid (.negativeOutput a)
  | none =>
    match firstDup tx.inputs [] with
    | some k => .invalid (.duplicateInput k)
    | none =>
      match checkInputs um tx.inputs 0 with
      | .error r => .invalid r
      | .ok totalIn =>
        match firstConflict tx.inputs spent with
        | some k => .invalid (.mempoolConflict k (cid k))
        | none =>
          if totalIn < totalOutput tx then
            .invalid (.insufficientInput totalIn (totalOutput tx))
          else .valid (totalIn - totalOutput tx)

/-- `TransactionValidator.validate_transaction(tx, utxo_manager, mempool)`.
With `mempool is None` the conflict loop is skipped (the empty claimed
set); otherwise the claimed set is `mempool.spent_utxos` and the
conflict message names the (last-scanned) claimant. -/
def validateTransaction (tx : Transaction) (um : Store)
    (mp : Option Mempool) : Verdict :=
  match mp with
  | none => validateCore tx um [] (fun _ => none)
  | some m => validateCore tx um m.spentUtxos (conflictingId m)

/-- `Transaction.calculate_fee`: sum the amounts of the inputs whose UTXO
is found (`if utxo:` skips missing ones) minus the sum of the outputs. -/
def calculateFee (tx : Transaction) (um : Store) : ℤ :=
  (tx.inputs.foldl
    (fun acc i =>
      match Store.getUtxo um i.key with
      | some u => acc + u.amount
      | none => acc) 0) - totalOutput tx

/-- `Mempool.remove_transaction`: pop the first resident with the given
id (if any) and discard its input keys from `spent_utxos`. -/
def removeTransaction (m : Mempool) (txId : String) :
    Option Transaction × Mempool :=
  match m.transactions.find? (fun t => t.tx_id = txId) with
  | none => (none, m)
  | some t =>
    (some t,
     { m with
       transactions := m.transactions.eraseP (fun t' => t'.tx_id = txId),
       spentUtxos := m.spentUtxos.filter (fun k => k ∉ t.inputKeys) })

/-- The scan of `Mempool._evict_lowest_fee`: starting from `min_fee = ∞`,
keep the first transaction whose fee is strictly below the running
minimum — i.e. the first-inserted transaction among those of minimal
fee. -/
def lowestFeeFirst (um : Store) : List Transaction → Option Transaction
  | [] => none
  | t :: ts =>
    some (ts.foldl
      (fun best x =>
        if calculateFee x um < calculateFee best um then x else best) t)

/-- `Mempool._evict_lowest_fee`: returns `False` on an empty pool,
otherwise removes the lowest-fee (first-inserted among ties) resident. -/
def evictLowestFee (m : Mempool) (um : Store) : Bool × Mempool :=
  match lowestFeeFirst um m.transactions with
  | none => (false, m)
  | some t => (true, (removeTransaction m t.tx_id).2)

/-- The outcome message of `Mempool.add_transaction`. -/
inductive AdmitMsg where
  | mempoolFull
  | rejected (r : Reason)
  | accepted (fee : ℤ)
deriving DecidableEq, Repr

/-- `Mempool.add_transaction(tx, utxo_manager)`: when at capacity, first
evict the lowest-fee resident (rejecting with `MempoolFull` when the pool
is empty); then validate against the (possibly reduced) pool; on success
append the transaction and add its input keys to `spent_utxos`. -/
def addTransaction (m : Mempool) (tx : Transaction) (um : Store) :
    (Bool × AdmitMsg) × Mempool :=
  if m.transactions.length ≥ m.maxSize then
    match evictLowestFee m um with
    | (false, m') => ((false, .mempoolFull), m')
    | (true, m') => addTransactionNoCap m' tx um
  else addTransactionNoCap m tx um
where
  /-- The validate-and-insert tail of `add_transaction`. -/
  addTransactionNoCap (m : Mempool) (tx : Transaction) (um : Store) :
      (Bool × AdmitMsg) × Mempool :=
    match validateTransaction tx um (some m) with
    | .invalid r => ((false, .rejected r), m)
    | .valid fee =>
      ((true, .accepted fee),
       { m with
         transactions := m.transactions ++ [tx],
         spentUtxos :=
           tx.inputKeys.foldl
             (fun s k => if k ∈ s then s else s ++ [k]) m.spentUtxos })

/-- The fee-tagging pass of `Mempool.get_top_transactions`. -/
def withFees (um : Store) (txs : List Transaction) :
    List (Transaction × ℤ) :=
  txs.map (fun t => (t, calculateFee t um))

/-- Stable insertion of a pair into a fee-descending list: the new
element goes after every earlier element of greater-or-equal fee,
modelling Python's stable `sort(key=fee, reverse=True)`. -/
def insertFeeDesc (p : Transaction × ℤ) :
    List (Transaction × ℤ) → List (Transaction × ℤ)
  | [] => [p]
  | q :: qs => if q.2 < p.2 then p :: q :: qs else q :: insertFeeDesc p qs

/-- Stable sort by descending fee (extensionally Python's
`list.sort(key=lambda x: x[1], reverse=True)`). -/
def sortFeeDesc (l : List (Transaction × ℤ)) : List (Transaction × ℤ) :=
  l.foldr insertFeeDesc []

/-- `Mempool.get_top_transactions(n, utxo_manager)`: tag residents with
their fee against the current store, stable-sort by descending fee, take
the first `n`, drop the fee tags. -/
def getTopTransactions (m : Mempool) (n : Nat) (um : Store) :
    List Transaction :=
  ((sortFeeDesc (withFees um m.transactions)).take n).map Prod.fst

/-- `create_simple_transaction(sender, recipient, amount, utxo_manager,
fee)` greedy selection loop: take the sender's listed UTXOs in order,
stopping once the running total reaches `amount + fee` (note the loop
appends before testing the threshold). -/
def greedySelect (needed : ℤ) (acc : ℤ) :
    List (Key × UTXOData) → List (Key × UTXOData)
  | [] => []
  | u :: us =>
    if acc + u.2.amount ≥ needed then [u]
    else u :: greedySelect needed (acc + u.2.amount) us

/-- `create_simple_transaction`: build a transfer from the sender's UTXO
listing (no mempool pre-filter — the function does not see the mempool),
returning `None` when the sender has no UTXOs or the selection never
reaches `amount + fee`; emits the recipient output and a change output
exactly when `total_selected - amount - fee > 0`.  The generated id is
passed in explicitly. -/
def createSimpleTransaction (sender recipient : String) (amount : ℤ)
    (um : Store) (fee : ℤ) (freshId : String) : Option Transaction :=
  let senderUtxos := Store.forOwner um sender
  if senderUtxos.isEmpty then none
  else
    let needed := amount + fee
    let selected := greedySelect needed 0 senderUtxos
    let totalSelected := (selected.map (fun u => u.2.amount)).sum
    if totalSelected < needed then none
    else
      let change := totalSelected - amount - fee
      some
        { tx_id := freshId,
          inputs := selected.map (fun u => ⟨u.1.1, u.1.2, sender⟩),
          outputs :=
            ⟨amount, recipient⟩ ::
              (if change > 0 then [⟨change, sender⟩] else []) }

/-- A `Block` of `block.py`: number, miner, the included transactions,
`total_fees` (0.0 unless set by the positive-fee branch) and the
optional coinbase transaction. -/
structure Block where
  blockNumber : Nat
  previousHash : String
  miner : String
  transactions : List Transaction
  totalFees : ℤ
  coinbase : Option Transaction
deriving DecidableEq, Repr

/-- The per-transaction commit step of `mine_block`: compute the fee
against the current store, burn the input UTXOs, mint the output UTXOs
keyed `(tx_id, output_index)`, and append the transaction to the block;
the accumulator carries `(store, total_fees, block transactions)`. -/
def commitStep (st : Store × ℤ × List Transaction) (tx : Transaction) :
    Store × ℤ × List Transaction :=
  (Store.mintOutputs (Store.burnInputs st.1 tx) tx,
   st.2.1 + calculateFee tx st.1, st.2.2 ++ [tx])

/-- `block.py mine_block(miner_address, mempool, utxo_manager, num_txs)`.
Selects the top transactions by fee (no re-validation), commits each in
order, creates a coinbase of `total_fees` to the miner *only when
`total_fees > 0`* (id `coinbase_{block_number}`), and removes the mined
transactions from the mempool.  Returns `(none, …)` when the selection
is empty.  `counter` models the global `Block.block_counter`. -/
def mineBlock (miner : String) (m : Mempool) (um : Store) (numTxs : Nat)
    (counter : Nat) : Option Block × Mempool × Store × Nat :=
  let selected := getTopTransactions m numTxs um
  if selected.isEmpty then (none, m, um, counter)
  else
    let blockNumber := counter + 1
    let committed := selected.foldl commitStep (um, 0, [])
    let totalFees := committed.2.1
    let withCoinbase :
        Store × ℤ × Option Transaction :=
      if totalFees > 0 then
        let cb : Transaction :=
          ⟨"coinbase_" ++ toString blockNumber, [], [⟨totalFees, miner⟩]⟩
        (Store.addUtxo committed.1 (cb.tx_id, 0) ⟨totalFees, miner⟩,
         totalFees, some cb)
      else (committed.1, 0, none)
    let m' :=
      selected.foldl (fun mp tx => (removeTransaction mp tx.tx_id).2) m
    (some
      { blockNumber := blockNumber,
        previousHash := "0",
        miner := miner,
        transactions := committed.2.2,
        totalFees := withCoinbase.2.1,
        coinbase := withCoinbase.2.2 },
     m', withCoinbase.1, blockNumber)

end Sim

namespace Api

/-- A `BlockModel` of `api/models.py` (the unread `timestamp` is kept as
it feeds the block hash and the coinbase id). -/
structure BlockModel where
  blockNumber : Nat
  previousHash : String
  miner : String
  transactions : List Transaction
  totalFees : ℤ
  timestamp : Nat
  hash : String
deriving DecidableEq, Repr

/-- The state behind `InMemoryDatabase`: the UTXO dict, the mempool list
and the chain list (in append order). -/
structure ServiceState where
  utxos : Store
  mempool : List Transaction
  chain : List BlockModel
deriving DecidableEq, Repr

/-- `InMemoryDatabase.remove_from_mempool`: filter out every transaction
with the given id. -/
def removeFromMempool (st : ServiceState) (txId : String) : ServiceState :=
  { st with mempool := st.mempool.filter (fun t => t.tx_id ≠ txId) }

/-- `InMemoryDatabase.add_to_mempool`: append. -/
def addToMempool (st : ServiceState) (tx : Transaction) : ServiceState :=
  { st with mempool := st.mempool ++ [tx] }

/-- `InMemoryDatabase.get_blockchain`: the last 20 blocks, newest
first. -/
def getBlockchain (st : ServiceState) : List BlockModel :=
  st.chain.reverse.take 20

/-- The `spent_in_mempool` set of `BitcoinService.validate_transaction`:
input keys of every pending transaction whose id differs from the
transaction under validation. -/
def spentByOthers (st : ServiceState) (txId : String) : List Key :=
  (st.mempool.filter (fun t => t.tx_id ≠ txId)).flatMap
    Transaction.inputKeys

/-- `BitcoinService.validate_transaction`: same checks in the same order
as the `Sim` validator, with the conflict set derived from the current
mempool (skipping the transaction's own id) and a conflict message that
names no conflicting transaction. -/
def validateTransaction (st : ServiceState) (tx : Transaction) :
    Sim.Verdict :=
  Sim.validateCore tx st.utxos (spentByOthers st tx.tx_id) (fun _ => none)

/-- Outcome message of `BitcoinService.create_transaction`. -/
inductive CreateMsg where
  | insufficientFunds (got need : ℤ)
  | rejected (r : Sim.Reason)
  | created
deriving DecidableEq, Repr

/-- The keys claimed by any pending transaction (the pre-filter set of
`create_transaction`, built from the whole mempool). -/
def spentInMempool (st : ServiceState) : List Key :=
  st.mempool.flatMap Transaction.inputKeys

/-- `BitcoinService.create_transaction(sender, recipient, amount, fee)`:
filter the sender's UTXOs by the mempool-claimed set, greedily select in
listing order until `amount + fee` is reached, build the transaction
(change output only when strictly positive), validate it, and append it
to the mempool on success.  The generated id is passed in explicitly. -/
def createTransaction (st : ServiceState) (sender recipient : String)
    (amount fee : ℤ) (freshId : String) :
    (Option Transaction × CreateMsg) × ServiceState :=
  let available :=
    (Store.forOwner st.utxos sender).filter
      (fun u => u.1 ∉ spentInMempool st)
  let needed := amount + fee
  let selected := Sim.greedySelect needed 0 available
  let totalSelected := (selected.map (fun u => u.2.amount)).sum
  if totalSelected < needed then
    ((none, .insufficientFunds totalSelected needed), st)
  else
    let change := totalSelected - amount - fee
    let tx : Transaction :=
      { tx_id := freshId,
        inputs := selected.map (fun u => ⟨u.1.1, u.1.2, sender⟩),
        outputs :=
          ⟨amount, recipient⟩ ::
            (if change > 0 then [⟨change, sender⟩] else []) }
    match validateTransaction st tx with
    | .invalid r => ((none, .rejected r), st)
    | .valid _ => ((some tx, .created), addToMempool st tx)

/-- Outcome message of `BitcoinService.mine_block`: the two distinct
failure messages and the success message. -/
inductive MineMsg where
  | emptyMempool
  | noValidTransactions
  | mined
deriving DecidableEq, Repr

/-- The re-validation loop of `mine_block`: walk the entry snapshot of
the mempool; a transaction failing validation (against the current
state) is removed from the mempool at once, a passing one is kept with
its fee (computed by summing the input UTXOs that exist). -/
def sift (st : ServiceState) :
    List Transaction → List (Transaction × ℤ) × ServiceState
  | [] => ([], st)
  | tx :: rest =>
    match validateTransaction st tx with
    | .invalid _ => sift (removeFromMempool st tx.tx_id) rest
    | .valid _ =>
      ((tx, Sim.calculateFee tx st.utxos) :: (sift st rest).1,
       (sift st rest).2)

/-- The per-transaction commit of `mine_block`: burn the input UTXOs,
mint the output UTXOs keyed `(tx_id, output_index)`, and remove the
transaction from the mempool. -/
def commitTx (st : ServiceState) (tx : Transaction) : ServiceState :=
  removeFromMempool
    { st with utxos := Store.mintOutputs (Store.burnInputs st.utxos tx) tx }
    tx.tx_id

/-- The coinbase transaction id minted by a mine call at state `st` with
timestamp `ts`: `coinbase_{block_num}_{timestamp}` where `block_num` is
one more than the length of the capped newest-first chain listing. -/
def coinbaseId (st : ServiceState) (ts : Nat) : String :=
  "coinbase_" ++ toString ((getBlockchain st).length + 1) ++ "_" ++
    toString ts

/-- The coinbase transaction synthesized by `mine_block` at state `st1`
(the post-sift state): zero inputs, one output of `total_fees` to the
miner. -/
def coinbaseTxOf (st1 : ServiceState) (miner : String) (ts : Nat)
    (totalFees : ℤ) : Transaction :=
  ⟨coinbaseId st1 ts, [], [⟨totalFees, miner⟩]⟩

/-- The `BlockModel` constructed by `mine_block`: block number is one
more than the capped chain listing's length, `previous_hash` is the last
element of the newest-first listing (or the genesis sentinel), and the
transactions are the selected ones followed by the coinbase. -/
def mkBlockOf (st1 : ServiceState) (miner : String) (ts : Nat)
    (selectedTxs : List Transaction) (totalFees : ℤ) : BlockModel :=
  { blockNumber := (getBlockchain st1).length + 1,
    previousHash :=
      match (getBlockchain st1).getLast? with
      | some b => b.hash
      | none => "genesis",
    miner := miner,
    transactions := selectedTxs ++ [coinbaseTxOf st1 miner ts totalFees],
    totalFees := totalFees,
    timestamp := ts,
    hash :=
      "block_" ++ toString ((getBlockchain st1).length + 1) ++ "_" ++
        miner ++ "_" ++
        toString (selectedTxs ++ [coinbaseTxOf st1 miner ts totalFees]).length
        ++ "_" ++ toString ts }

/-- The commit loop of `mine_block` over the selected transactions. -/
def commitAll (st1 : ServiceState) (selectedTxs : List Transaction) :
    ServiceState :=
  selectedTxs.foldl commitTx st1

/-- `BitcoinService.mine_block(miner_address, num_txs)`: return
`emptyMempool` on an empty mempool; re-validate and drop failing
residents; sort survivors by descending fee and take `num_txs`; return
`noValidTransactions` when nothing survives; otherwise commit each
selected transaction, mint the coinbase UTXO (always, also for zero
fees) and append the block.  The wall-clock timestamp is passed in. -/
def mineBlock (st : ServiceState) (miner : String) (numTxs : Nat)
    (ts : Nat) : (Option BlockModel × MineMsg) × ServiceState :=
  if st.mempool.isEmpty then ((none, .emptyMempool), st)
  else
    let sifted := sift st st.mempool
    let st1 := sifted.2
    let selected := (Sim.sortFeeDesc sifted.1).take numTxs
    if selected.isEmpty then ((none, .noValidTransactions), st1)
    else
      let selectedTxs := selected.map Prod.fst
      let totalFees := (selected.map Prod.snd).sum
      let block := mkBlockOf st1 miner ts selectedTxs totalFees
      let st2 := commitAll st1 selectedTxs
      let st3 :=
        { st2 with
          utxos :=
            Store.addUtxo st2.utxos
              ((coinbaseTxOf st1 miner ts totalFees).tx_id, 0)
              ⟨totalFees, miner⟩ }
      let st4 := { st3 with chain := st3.chain ++ [block] }
      ((some block, .mined), st4)

/-- `BitcoinService.init_genesis(allocations)`: install one genesis UTXO
per allocation, keyed `("genesis", i)` in enumeration order, on a fresh
state. -/
def initGenesis (allocations : List (String × ℤ)) : ServiceState :=
  { utxos :=
      (allocations.enum).foldl
        (fun s oa => Store.addUtxo s ("genesis", oa.1) ⟨oa.2.2, oa.2.1⟩) [],
    mempool := [],
    chain := [] }

/-- The non-coinbase transactions of a mined block (the coinbase is
appended last by `mine_block`). -/
def BlockModel.bodyTxs (b : BlockModel) : List Transaction :=
  b.transactions.dropLast

end Api

/-! ### Specification-side definitions

The definitions below transcribe the *claims'* wording (rule order,
first-minimum eviction, conservation traces); the theorems compare them
with the source-translated definitions above. -/

/-- Which of the validator's rules a rejection reason belongs to. -/
inductive RuleTag where
  | negOut
  | dupIn
  | missingIn
  | ownerMism
  | mpConflict
  | insufficientIn
deriving DecidableEq, Repr

namespace Sim

/-- The rule behind each rejection reason. -/
def Reason.tag : Reason → RuleTag
  | .negativeOutput _ => .negOut
  | .duplicateInput _ => .dupIn
  | .missingUtxo _ => .missingIn
  | .ownerMismatch _ _ => .ownerMism
  | .mempoolConflict _ _ => .mpConflict
  | .insufficientInput _ _ => .insufficientIn

/-- The rule of the rejection, if the verdict is a rejection. -/
def Verdict.tag? : Verdict → Option RuleTag
  | .valid _ => none
  | .invalid r => some r.tag

/-- An input that fails the existence-and-ownership stage: its UTXO is
absent, or present with a different owner. -/
def badInput (um : Store) (i : TxInput) : Bool :=
  match Store.getUtxo um i.key with
  | none => true
  | some u => decide (u.owner ≠ i.owner)

/-- The claim's `total_input`: each input contributes its referenced
UTXO's amount (0 when absent — relevant only before existence passes). -/
def specTotalInput (um : Store) (inputs : List TxInput) : ℤ :=
  (inputs.map
    (fun i => ((Store.getUtxo um i.key).map UTXOData.amount).getD 0)).sum

/-- The claim's fixed rule order, as a specification: the rule of the
first failing check (`none` when the transaction is valid).  Within the
existence-and-ownership stage the first offending input decides between
`missingIn` and `ownerMism`. -/
def firstFailingRule (tx : Transaction) (um : Store) (spent : List Key) :
    Option RuleTag :=
  if tx.outputs.any (fun o => o.amount < 0) then some .negOut
  else if ¬ tx.inputKeys.Nodup then some .dupIn
  else
    match tx.inputs.find? (badInput um) with
    | some i =>
      some (match Store.getUtxo um i.key with
            | none => .missingIn
            | some _ => .ownerMism)
    | none =>
      if tx.inputs.any (fun i => i.key ∈ spent) then some .mpConflict
      else if specTotalInput um tx.inputs < totalOutput tx then
        some .insufficientIn
      else none

/-- The claim's amount summed by `calculate_fee`: the amounts of only
those inputs whose referenced UTXO exists in the store. -/
def existingInputSum (um : Store) (tx : Transaction) : ℤ :=
  ((tx.inputs.filter (fun i => Store.existsUtxo um i.key)).map
    (fun i => ((Store.getUtxo um i.key).map UTXOData.amount).getD 0)).sum

/-- The claim's eviction target: the first-inserted resident among those
of minimal fee. -/
def firstMinFeeTx (um : Store) (l : List Transaction) :
    Option Transaction :=
  match (l.map (fun t => calculateFee t um)).min? with
  | none => none
  | some mf => l.find? (fun t => calculateFee t um = mf)

/-- Mempool exclusivity: no two residents share an input key. -/
def Mempool.exclusive (m : Mempool) : Prop :=
  m.transactions.Pairwise
    (fun a b => ∀ k ∈ a.inputKeys, k ∉ b.inputKeys)

/-- Consistency of the derived conflict set: `spent_utxos` holds exactly
the keys claimed by some resident. -/
def Mempool.consistent (m : Mempool) : Prop :=
  (∀ k ∈ m.spentUtxos, ∃ t ∈ m.transactions, k ∈ t.inputKeys) ∧
    (∀ t ∈ m.transactions, ∀ k ∈ t.inputKeys, k ∈ m.spentUtxos)

/-- Well-formedness of a mempool: exclusivity plus conflict-set
consistency. -/
def Mempool.WFm (m : Mempool) : Prop :=
  m.exclusive ∧ m.consistent

instance : DecidablePred Mempool.exclusive := fun _m =>
  inferInstanceAs (Decidable (List.Pairwise _ _))

instance : DecidablePred Mempool.consistent := fun _m =>
  inferInstanceAs (Decidable (_ ∧ _))

instance : DecidablePred Mempool.WFm := fun _m =>
  inferInstanceAs (Decidable (_ ∧ _))

/-- Mempool states reachable through the store-facing operations: the
fresh empty pool, admissions (`add_transaction`), removals
(`remove_transaction`, also called for each mined transaction), and the
mempool side of `mine_block`. -/
inductive Reachable : Mempool → Prop where
  | empty (n : Nat) : Reachable ⟨[], [], n⟩
  | add (m : Mempool) (tx : Transaction) (um : Store) :
      Reachable m → Reachable (addTransaction m tx um).2
  | remove (m : Mempool) (txId : String) :
      Reachable m → Reachable (removeTransaction m txId).2
  | mine (m : Mempool) (miner : String) (um : Store) (numTxs counter : Nat) :
      Reachable m → Reachable (mineBlock miner m um numTxs counter).2.1

end Sim

namespace Api

/-- One service operation of a trace: a transfer creation or a mine
call, with the nondeterministic inputs (generated id, wall clock) made
explicit. -/
inductive TraceOp where
  | create (sender recipient : String) (amount fee : ℤ) (freshId : String)
  | mine (miner : String) (numTxs : Nat) (ts : Nat)
deriving DecidableEq, Repr

/-- Apply one trace operation to the service state. -/
def execOp (st : ServiceState) : TraceOp → ServiceState
  | .create sender recipient amount fee freshId =>
    (createTransaction st sender recipient amount fee freshId).2
  | .mine miner numTxs ts => (mineBlock st miner numTxs ts).2

/-- Run a trace. -/
def exec (st : ServiceState) (ops : List TraceOp) : ServiceState :=
  ops.foldl execOp st

/-- Side conditions under which a mine call is considered at state `st`:
the store is a well-formed dict, pending ids are pairwise distinct and
fresh with respect to every stored UTXO key, and the coinbase id about
to be generated collides with neither.  These express the uniqueness of
generated transaction ids, which the source leaves to its random id
generator. -/
def mineOk (st : ServiceState) (ts : Nat) : Bool :=
  decide (Store.WFKeys st.utxos) &&
    (st.mempool.map Transaction.tx_id).Nodup &&
    st.mempool.all (fun t => st.utxos.all (fun e => e.1.1 ≠ t.tx_id)) &&
    st.utxos.all (fun e => e.1.1 ≠ coinbaseId st ts) &&
    st.mempool.all (fun t => t.tx_id ≠ coinbaseId st ts)

/-- A trace whose generated ids are fresh: each create call's generated
id differs from every pending transaction's id, and each mine call
satisfies `mineOk` at its call state. -/
def execOk (st : ServiceState) : List TraceOp → Bool
  | [] => true
  | op :: rest =>
    (match op with
     | .create _ _ _ _ freshId =>
       st.mempool.all (fun t => t.tx_id ≠ freshId)
     | .mine _ _ ts => mineOk st ts) &&
      execOk (execOp st op) rest

/-- The fees minted as coinbase outputs over the blocks of the chain
(each block's coinbase output equals its `total_fees`). -/
def feesMintedAsCoinbase (st : ServiceState) : ℤ :=
  (st.chain.map BlockModel.totalFees).sum

end Api

/-! ## Lemmas about the UTXO store -/

namespace Store

theorem getUtxo_nil (k : Key) : getUtxo [] k = none := rfl

theorem getUtxo_cons (e : Key × UTXOData) (rest : Store) (k : Key) :
    getUtxo (e :: rest) k = if e.1 = k then some e.2 else getUtxo rest k := by
  by_cases h : e.1 = k <;> simp [getUtxo, List.find?_cons, h]

theorem removeUtxo_nil (k : Key) : removeUtxo [] k = [] := rfl

theorem removeUtxo_cons (e : Key × UTXOData) (rest : Store) (k : Key) :
    removeUtxo (e :: rest) k =
      if e.1 = k then removeUtxo rest k else e :: removeUtxo rest k := by
  by_cases h : e.1 = k <;> simp [removeUtxo, List.filter_cons, h]

theorem addUtxo_nil (k : Key) (d : UTXOData) : addUtxo [] k d = [(k, d)] := rfl

theorem addUtxo_cons (e : Key × UTXOData) (rest : Store) (k : Key)
    (d : UTXOData) :
    addUtxo (e :: rest) k d =
      if e.1 = k then (k, d) :: rest else e :: addUtxo rest k d := rfl

theorem utxoSum_nil : utxoSum [] = 0 := rfl

theorem utxoSum_cons (e : Key × UTXOData) (rest : Store) :
    utxoSum (e :: rest) = e.2.amount + utxoSum rest := by
  simp [utxoSum]

theorem keys_cons (e : Key × UTXOData) (rest : Store) :
    keys (e :: rest) = e.1 :: keys rest := rfl

theorem getUtxo_eq_none_iff (s : Store) (k : Key) :
    getUtxo s k = none ↔ k ∉ keys s := by
  induction s with
  | nil => simp [getUtxo, keys]
  | cons e rest ih =>
    rw [getUtxo_cons, keys_cons]
    by_cases h : e.1 = k
    · simp [h]
    · simp only [h, if_false, ih, List.mem_cons, not_or]
      exact ⟨fun hk => ⟨fun hh => h hh.symm, hk⟩, fun hk => hk.2⟩

theorem getUtxo_addUtxo_self (s : Store) (k : Key) (d : UTXOData) :
    getUtxo (addUtxo s k d) k = some d := by
  induction s with
  | nil => simp [addUtxo_nil, getUtxo_cons]
  | cons e rest ih =>
    rw [addUtxo_cons]
    by_cases h : e.1 = k
    · simp [h, getUtxo_cons]
    · rw [if_neg h, getUtxo_cons, if_neg h, ih]

theorem getUtxo_addUtxo_ne (s : Store) (k k' : Key) (d : UTXOData)
    (h : k' ≠ k) : getUtxo (addUtxo s k d) k' = getUtxo s k' := by
  induction s with
  | nil => simp [addUtxo_nil, getUtxo_cons, getUtxo_nil, Ne.symm h]
  | cons e rest ih =>
    rw [addUtxo_cons]
    by_cases he : e.1 = k
    · rw [if_pos he, getUtxo_cons, getUtxo_cons, if_neg (Ne.symm h),
        if_neg (he ▸ fun hh => h (hh.symm))]
    · rw [if_neg he, getUtxo_cons, getUtxo_cons, ih]

theorem getUtxo_removeUtxo_self (s : Store) (k : Key) :
    getUtxo (removeUtxo s k) k = none := by
  induction s with
  | nil => simp [removeUtxo_nil, getUtxo_nil]
  | cons e rest ih =>
    rw [removeUtxo_cons]
    by_cases h : e.1 = k
    · rw [if_pos h, ih]
    · rw [if_neg h, getUtxo_cons, if_neg h, ih]

theorem getUtxo_removeUtxo_ne (s : Store) (k k' : Key) (h : k' ≠ k) :
    getUtxo (removeUtxo s k) k' = getUtxo s k' := by
  induction s with
  | nil => simp [removeUtxo_nil]
  | cons e rest ih =>
    rw [removeUtxo_cons]
    by_cases he : e.1 = k
    · rw [if_pos he, ih, getUtxo_cons,
        if_neg (fun hh : e.1 = k' => h (hh ▸ he))]
    · rw [if_neg he, getUtxo_cons, getUtxo_cons, ih]

theorem mem_keys_addUtxo (s : Store) (k a : Key) (d : UTXOData) :
    a ∈ keys (addUtxo s k d) ↔ a = k ∨ a ∈ keys s := by
  induction s with
  | nil => simp [addUtxo_nil, keys]
  | cons e rest ih =>
    rw [addUtxo_cons]
    by_cases h : e.1 = k
    · rw [if_pos h, keys_cons, keys_cons]
      subst h
      constructor
      · rintro hm
        rcases List.mem_cons.1 hm with rfl | hm'
        · exact Or.inl rfl
        · exact Or.inr (List.mem_cons.2 (Or.inr hm'))
      · rintro (rfl | hm)
        · exact List.mem_cons.2 (Or.inl rfl)
        · rcases List.mem_cons.1 hm with rfl | hm'
          · exact List.mem_cons.2 (Or.inl rfl)
          · exact List.mem_cons.2 (Or.inr hm')
    · rw [if_neg h, keys_cons, keys_cons, List.mem_cons, List.mem_cons, ih]
      tauto

theorem WFKeys_addUtxo (s : Store) (k : Key) (d : UTXOData)
    (h : WFKeys s) : WFKeys (addUtxo s k d) := by
  induction s with
  | nil => simp [addUtxo_nil, WFKeys, keys]
  | cons e rest ih =>
    rw [WFKeys, keys_cons, List.nodup_cons] at h
    rw [addUtxo_cons]
    by_cases he : e.1 = k
    · rw [if_pos he, WFKeys, keys_cons, List.nodup_cons]
      exact ⟨he ▸ h.1, h.2⟩
    · rw [if_neg he, WFKeys, keys_cons, List.nodup_cons]
      refine ⟨fun hm => ?_, ih h.2⟩
      rcases (mem_keys_addUtxo rest k e.1 d).1 hm with rfl | hm'
      · exact he rfl
      · exact h.1 hm'

theorem WFKeys_removeUtxo (s : Store) (k : Key) (h : WFKeys s) :
    WFKeys (removeUtxo s k) := by
  induction s with
  | nil => simpa [removeUtxo_nil] using h
  | cons e rest ih =>
    rw [WFKeys, keys_cons, List.nodup_cons] at h
    rw [removeUtxo_cons]
    by_cases he : e.1 = k
    · rw [if_pos he]
      exact ih h.2
    · rw [if_neg he, WFKeys, keys_cons, List.nodup_cons]
      refine ⟨fun hm => h.1 ?_, ih h.2⟩
      have : keys (removeUtxo rest k) = (keys rest).filter (fun a => a ≠ k) := by
        simp [keys, removeUtxo, List.filter_map]
        rfl
      rw [this] at hm
      exact (List.mem_filter.1 hm).1

theorem removeUtxo_of_absent (s : Store) (k : Key)
    (h : getUtxo s k = none) : removeUtxo s k = s := by
  induction s with
  | nil => rfl
  | cons e rest ih =>
    rw [getUtxo_cons] at h
    by_cases he : e.1 = k
    · rw [if_pos he] at h; exact absurd h (by simp)
    · rw [if_neg he] at h
      rw [removeUtxo_cons, if_neg he, ih h]

theorem utxoSum_removeUtxo (s : Store) (k : Key) (h : WFKeys s) :
    utxoSum (removeUtxo s k) =
      utxoSum s - ((getUtxo s k).map UTXOData.amount).getD 0 := by
  induction s with
  | nil => simp [removeUtxo_nil, utxoSum_nil, getUtxo_nil]
  | cons e rest ih =>
    rw [WFKeys, keys_cons, List.nodup_cons] at h
    rw [removeUtxo_cons, getUtxo_cons]
    by_cases he : e.1 = k
    · rw [if_pos he, if_pos he]
      have hnone : getUtxo rest k = none :=
        (getUtxo_eq_none_iff rest k).2 (he ▸ h.1)
      rw [removeUtxo_of_absent rest k hnone, utxoSum_cons]
      simp
    · rw [if_neg he, if_neg he, utxoSum_cons, utxoSum_cons, ih h.2]
      ring

theorem utxoSum_addUtxo_fresh (s : Store) (k : Key) (d : UTXOData)
    (h : getUtxo s k = none) :
    utxoSum (addUtxo s k d) = utxoSum s + d.amount := by
  induction s with
  | nil => simp [addUtxo_nil, utxoSum]
  | cons e rest ih =>
    rw [getUtxo_cons] at h
    by_cases he : e.1 = k
    · rw [if_pos he] at h; exact absurd h (by simp)
    · rw [if_neg he] at h
      rw [addUtxo_cons, if_neg he, utxoSum_cons, utxoSum_cons, ih h]
      ring

end Store

/-! ## Characterization of the validator -/

namespace Sim

theorem findNegOutput_eq_none_iff (outs : List TxOutput) :
    findNegOutput outs = none ↔
      outs.any (fun o => decide (o.amount < 0)) = false := by
  unfold findNegOutput
  constructor
  · intro h
    rcases hf : outs.find? (fun o => decide (o.amount < 0)) with - | o
    · rw [Bool.eq_false_iff]
      intro hany
      rcases List.any_eq_true.1 hany with ⟨x, hx, hpx⟩
      rw [List.find?_eq_none] at hf
      exact hf x hx hpx
    · rw [hf] at h; simp at h
  · intro h
    rcases hf : outs.find? (fun o => decide (o.amount < 0)) with - | o
    · rw [hf]; rfl
    · have := List.find?_some hf
      have hmem := List.mem_of_find?_eq_some hf
      rw [Bool.eq_false_iff] at h
      exact absurd (List.any_eq_true.2 ⟨o, hmem, this⟩) h

theorem firstDup_eq_none_iff (l : List TxInput) (seen : List Key) :
    firstDup l seen = none ↔
      (l.map TxInput.key).Nodup ∧ ∀ k ∈ l.map TxInput.key, k ∉ seen := by
  induction l generalizing seen with
  | nil => simp [firstDup]
  | cons i rest ih =>
    unfold firstDup
    by_cases h : i.key ∈ seen
    · rw [if_pos h]
      constructor
      · intro hh; exact absurd hh (by simp)
      · rintro ⟨-, hall⟩
        exact absurd h (hall i.key (by simp))
    · rw [if_neg h, ih]
      constructor
      · rintro ⟨hnd, hall⟩
        have hhead : i.key ∉ rest.map TxInput.key := fun hmem =>
          (hall i.key hmem) (List.mem_cons_self _ _)
        refine ⟨by rw [List.map_cons, List.nodup_cons]; exact ⟨hhead, hnd⟩, ?_⟩
        intro k hk
        rw [List.map_cons] at hk
        rcases List.mem_cons.1 hk with rfl | hk'
        · exact h
        · exact fun hks =>
            (hall k hk') (List.mem_cons.2 (Or.inr hks))
      · rintro ⟨hnd, hall⟩
        rw [List.map_cons, List.nodup_cons] at hnd
        refine ⟨hnd.2, ?_⟩
        intro k hk hks
        rcases List.mem_cons.1 hks with rfl | hks'
        · exact hnd.1 hk
        · exact hall k (by rw [List.map_cons]; exact List.mem_cons.2 (Or.inr hk))
            hks'

theorem checkInputs_find_none (um : Store) (l : List TxInput) (acc : ℤ)
    (h : l.find? (badInput um) = none) :
    checkInputs um l acc = .ok (acc + specTotalInput um l) := by
  induction l generalizing acc with
  | nil => simp [checkInputs, specTotalInput]
  | cons i rest ih =>
    have hb : badInput um i = false := by
      cases hbi : badInput um i
      · rfl
      · rw [List.find?_cons, hbi] at h; simp at h
    have hrest : rest.find? (badInput um) = none := by
      rw [List.find?_cons, hb] at h; exact h
    unfold badInput at hb
    cases hg : Store.getUtxo um i.key with
    | none => rw [hg] at hb; simp at hb
    | some u =>
      rw [hg] at hb
      have howner : u.owner = i.owner := by
        by_contra hne
        simp [hne] at hb
      simp only [checkInputs, hg]
      rw [if_neg (by simp [howner]), ih (acc + u.amount) hrest]
      have : specTotalInput um (i :: rest) =
          u.amount + specTotalInput um rest := by
        simp [specTotalInput, hg]
      rw [this]
      congr 1
      ring

theorem checkInputs_find_some (um : Store) (l : List TxInput) (acc : ℤ)
    (i : TxInput) (h : l.find? (badInput um) = some i) :
    checkInputs um l acc =
      .error
        (match Store.getUtxo um i.key with
         | none => .missingUtxo i.key
         | some u => .ownerMismatch u.owner i.owner) := by
  induction l generalizing acc with
  | nil => simp at h
  | cons j rest ih =>
    cases hb : badInput um j with
    | true =>
      rw [List.find?_cons, hb] at h
      have hij : j = i := by simpa using h
      subst hij
      unfold badInput at hb
      cases hg : Store.getUtxo um j.key with
      | none => simp only [checkInputs, hg]
      | some u =>
        rw [hg] at hb
        have : u.owner ≠ j.owner := by
          intro hne
          simp [hne] at hb
        simp only [checkInputs, hg]
        rw [if_pos this]
    | false =>
      rw [List.find?_cons, hb] at h
      unfold badInput at hb
      cases hg : Store.getUtxo um j.key with
      | none => rw [hg] at hb; simp at hb
      | some u =>
        rw [hg] at hb
        have howner : u.owner = j.owner := by
          by_contra hne
          simp [hne] at hb
        simp only [checkInputs, hg]
        rw [if_neg (by simp [howner])]
        exact ih (acc + u.amount) h

theorem firstConflict_eq_none_iff (l : List TxInput) (spent : List Key) :
    firstConflict l spent = none ↔ ∀ i ∈ l, i.key ∉ spent := by
  unfold firstConflict
  constructor
  · intro h i hi hks
    rcases hf : l.find? (fun i => decide (i.key ∈ spent)) with - | j
    · rw [List.find?_eq_none] at hf
      exact hf i hi (by simpa using hks)
    · rw [hf] at h; simp at h
  · intro h
    rcases hf : l.find? (fun i => decide (i.key ∈ spent)) with - | j
    · rw [hf]; rfl
    · have hj := List.find?_some hf
      have hjm := List.mem_of_find?_eq_some hf
      exact absurd (by simpa using hj) (h j hjm)

theorem validateCore_tag (tx : Transaction) (um : Store)
    (spent : List Key) (cid : Key → Option String) :
    Verdict.tag? (validateCore tx um spent cid) =
      firstFailingRule tx um spent := by
  unfold validateCore firstFailingRule
  cases hn : findNegOutput tx.outputs with
  | some a =>
    have : tx.outputs.any (fun o => decide (o.amount < 0)) = true := by
      rcases hany : tx.outputs.any (fun o => decide (o.amount < 0))
      · exact absurd ((findNegOutput_eq_none_iff tx.outputs).2 hany)
          (by rw [hn]; simp)
      · rfl
    simp [this, Verdict.tag?, Reason.tag]
  | none =>
    have hanyf := (findNegOutput_eq_none_iff tx.outputs).1 hn
    rw [if_neg (by simp [hanyf])]
    cases hd : firstDup tx.inputs [] with
    | some k =>
      have hnd : ¬ tx.inputKeys.Nodup := by
        intro hnodup
        have : firstDup tx.inputs [] = none :=
          (firstDup_eq_none_iff tx.inputs []).2 ⟨hnodup, by simp⟩
        rw [hd] at this; simp at this
      simp [hnd, Verdict.tag?, Reason.tag]
    | none =>
      have hnd : tx.inputKeys.Nodup :=
        ((firstDup_eq_none_iff tx.inputs []).1 hd).1
      rw [if_neg (by simp [Transaction.inputKeys] at hnd ⊢; exact hnd)]
      cases hf : tx.inputs.find? (badInput um) with
      | some i =>
        rw [checkInputs_find_some um tx.inputs 0 i hf]
        cases hg : Store.getUtxo um i.key with
        | none => simp [hg, Verdict.tag?, Reason.tag]
        | some u => simp [hg, Verdict.tag?, Reason.tag]
      | none =>
        rw [checkInputs_find_none um tx.inputs 0 hf]
        cases hc : firstConflict tx.inputs spent with
        | some k =>
          have : tx.inputs.any (fun i => decide (i.key ∈ spent)) = true := by
            rcases hany : tx.inputs.any (fun i => decide (i.key ∈ spent))
            · have : ∀ i ∈ tx.inputs, i.key ∉ spent := by
                intro i hi hks
                rw [List.any_eq_false] at hany
                exact absurd (by simpa using hks) (by simpa using hany i hi)
              exact absurd ((firstConflict_eq_none_iff tx.inputs spent).2 this)
                (by rw [hc]; simp)
            · rfl
          simp [this, Verdict.tag?, Reason.tag]
        | none =>
          have hns := (firstConflict_eq_none_iff tx.inputs spent).1 hc
          rw [if_neg (by simp; exact hns)]
          rw [zero_add]
          by_cases hlt : specTotalInput um tx.inputs < totalOutput tx
          · simp [hlt, Verdict.tag?, Reason.tag]
          · simp [hlt, Verdict.tag?]

theorem validateCore_valid_iff (tx : Transaction) (um : Store)
    (spent : List Key) (cid : Key → Option String) (f : ℤ) :
    validateCore tx um spent cid = .valid f ↔
      ((∀ o ∈ tx.outputs, ¬ o.amount < 0) ∧
        tx.inputKeys.Nodup ∧
        (∀ i ∈ tx.inputs, badInput um i = false) ∧
        (∀ i ∈ tx.inputs, i.key ∉ spent) ∧
        totalOutput tx ≤ specTotalInput um tx.inputs ∧
        f = specTotalInput um tx.inputs - totalOutput tx) := by
  unfold validateCore
  constructor
  · intro h
    cases hn : findNegOutput tx.outputs with
    | some a => simp only [hn] at h; exact absurd h (by simp)
    | none =>
      simp only [hn] at h
      cases hd : firstDup tx.inputs [] with
      | some k => simp only [hd] at h; exact absurd h (by simp)
      | none =>
        simp only [hd] at h
        cases hf : tx.inputs.find? (badInput um) with
        | some i =>
          rw [checkInputs_find_some um tx.inputs 0 i hf] at h
          cases hg : Store.getUtxo um i.key with
          | none => simp only [hg] at h; exact absurd h (by simp)
          | some u => simp only [hg] at h; exact absurd h (by simp)
        | none =>
          rw [checkInputs_find_none um tx.inputs 0 hf] at h
          cases hc : firstConflict tx.inputs spent with
          | some k => simp only [hc] at h; exact absurd h (by simp)
          | none =>
            simp only [hc, zero_add] at h
            by_cases hlt : specTotalInput um tx.inputs < totalOutput tx
            · rw [if_pos hlt] at h; simp at h
            · rw [if_neg hlt] at h
              have hf' : f = specTotalInput um tx.inputs - totalOutput tx := by
                simpa using h.symm
              refine ⟨?_, ((firstDup_eq_none_iff tx.inputs []).1 hd).1,
                fun i hi => ?_,
                (firstConflict_eq_none_iff tx.inputs spent).1 hc,
                le_of_not_lt hlt, hf'⟩
              · intro o ho hneg
                have := (findNegOutput_eq_none_iff tx.outputs).1 hn
                rw [List.any_eq_false] at this
                exact absurd (by simpa using hneg) (by simpa using this o ho)
              · have := List.find?_eq_none.1 hf i hi
                simpa using this
  · rintro ⟨hneg, hnd, hbad, hns, hle, rfl⟩
    have hn : findNegOutput tx.outputs = none :=
      (findNegOutput_eq_none_iff tx.outputs).2
        (by rw [List.any_eq_false]; intro o ho; simpa using hneg o ho)
    have hd : firstDup tx.inputs [] = none :=
      (firstDup_eq_none_iff tx.inputs []).2 ⟨hnd, by simp⟩
    have hf : tx.inputs.find? (badInput um) = none :=
      List.find?_eq_none.2 (fun i hi => by simp [hbad i hi])
    have hc : firstConflict tx.inputs spent = none :=
      (firstConflict_eq_none_iff tx.inputs spent).2 hns
    simp only [hn, hd, checkInputs_find_none um tx.inputs 0 hf, hc, zero_add]
    rw [if_neg (not_lt.2 hle)]

end Sim

/-! ## C4 — validator rule order and fee -/

/-- C4: both validators apply their checks in the fixed order
(non-negative outputs, no duplicate input key, input existence and owner
match, mempool conflict, balance), reject with the reason of the first
failing rule (`firstFailingRule` transcribes the claimed order), and on
success return `fee = total_input - total_output`, a zero fee passing
validation. -/
theorem C4_validator_order (tx : Transaction) (um : Store)
    (m : Sim.Mempool) (st : Api.ServiceState) :
    Sim.Verdict.tag? (Sim.validateTransaction tx um (some m)) =
      Sim.firstFailingRule tx um m.spentUtxos ∧
    Sim.Verdict.tag? (Api.validateTransaction st tx) =
      Sim.firstFailingRule tx st.utxos (Api.spentByOthers st tx.tx_id) ∧
    (∀ f, Sim.validateTransaction tx um (some m) = .valid f →
      f = Sim.specTotalInput um tx.inputs - Sim.totalOutput tx) ∧
    (Sim.firstFailingRule tx um m.spentUtxos = none ∧
        Sim.specTotalInput um tx.inputs = Sim.totalOutput tx →
      Sim.validateTransaction tx um (some m) = .valid 0) := by
  refine ⟨Sim.validateCore_tag tx um m.spentUtxos (Sim.conflictingId m),
    Sim.validateCore_tag tx st.utxos (Api.spentByOthers st tx.tx_id)
      (fun _ => none), fun f h => ?_, fun h => ?_⟩
  · exact ((Sim.validateCore_valid_iff tx um m.spentUtxos
      (Sim.conflictingId m) f).1 h).2.2.2.2.2
  · rcases h with ⟨hnone, heq⟩
    have htag := Sim.validateCore_tag tx um m.spentUtxos (Sim.conflictingId m)
    rw [hnone] at htag
    cases hv : Sim.validateTransaction tx um (some m) with
    | invalid r =>
      rw [show Sim.validateTransaction tx um (some m) =
        Sim.validateCore tx um m.spentUtxos (Sim.conflictingId m) from rfl]
        at hv
      rw [hv] at htag
      simp [Sim.Verdict.tag?] at htag
    | valid f =>
      have : f = Sim.specTotalInput um tx.inputs - Sim.totalOutput tx :=
        ((Sim.validateCore_valid_iff tx um m.spentUtxos
          (Sim.conflictingId m) f).1 hv).2.2.2.2.2
      rw [this, heq, sub_self]

/-- Witness for C4 at a concrete zero-fee transaction: the hypotheses of
the success clause hold and the validator accepts with fee 0. -/
theorem C4_validator_order_witness :
    Sim.validateTransaction ⟨"t", [⟨"g", 0, "x"⟩], [⟨5, "y"⟩]⟩
        [(("g", 0), ⟨5, "x"⟩)] (some ⟨[], [], 10⟩) = .valid 0 :=
  (C4_validator_order ⟨"t", [⟨"g", 0, "x"⟩], [⟨5, "y"⟩]⟩
      [(("g", 0), ⟨5, "x"⟩)] ⟨[], [], 10⟩
      ⟨[(("g", 0), ⟨5, "x"⟩)], [], []⟩).2.2.2 ⟨by decide, by decide⟩

/-! ## Mempool invariant machinery -/

namespace Sim

theorem mem_spentFold (ks : List Key) (s : List Key) (k : Key) :
    k ∈ ks.foldl (fun s k => if k ∈ s then s else s ++ [k]) s ↔
      k ∈ s ∨ k ∈ ks := by
  induction ks generalizing s with
  | nil => simp
  | cons a rest ih =>
    rw [List.foldl_cons]
    by_cases ha : a ∈ s
    · rw [if_pos ha, ih]
      constructor
      · rintro (hk | hk)
        · exact Or.inl hk
        · exact Or.inr (List.mem_cons.2 (Or.inr hk))
      · rintro (hk | hk)
        · exact Or.inl hk
        · rcases List.mem_cons.1 hk with rfl | hk'
          · exact Or.inl ha
          · exact Or.inr hk'
    · rw [if_neg ha, ih]
      constructor
      · rintro (hk | hk)
        · rcases List.mem_append.1 hk with hk' | hk'
          · exact Or.inl hk'
          · exact Or.inr (List.mem_cons.2 (Or.inl (by simpa using hk')))
        · exact Or.inr (List.mem_cons.2 (Or.inr hk))
      · rintro (hk | hk)
        · exact Or.inl (List.mem_append.2 (Or.inl hk))
        · rcases List.mem_cons.1 hk with rfl | hk'
          · exact Or.inl (List.mem_append.2 (Or.inr (by simp)))
          · exact Or.inr hk'

theorem find?_decomp {α : Type} {p : α → Bool} {l : List α} {t : α}
    (h : l.find? p = some t) :
    ∃ l₁ l₂, l = l₁ ++ t :: l₂ ∧ (∀ b ∈ l₁, p b = false) ∧
      l.eraseP p = l₁ ++ l₂ := by
  induction l with
  | nil => simp at h
  | cons a rest ih =>
    cases hp : p a with
    | true =>
      rw [List.find?_cons, hp] at h
      have : a = t := by simpa using h
      subst this
      exact ⟨[], rest, by simp, by simp, by simp [List.eraseP_cons, hp]⟩
    | false =>
      rw [List.find?_cons, hp] at h
      obtain ⟨l₁, l₂, hl, hfail, herase⟩ := ih h
      exact ⟨a :: l₁, l₂, by simp [hl], by
        intro b hb
        rcases List.mem_cons.1 hb with rfl | hb'
        · exact hp
        · exact hfail b hb',
        by simp [List.eraseP_cons, hp, herase]⟩

theorem WFm_empty (n : Nat) : Mempool.WFm ⟨[], [], n⟩ := by
  refine ⟨by simp [Mempool.exclusive], by simp [Mempool.consistent], ?_⟩
  intro t ht
  simp at ht

theorem removeTransaction_WFm (m : Mempool) (txId : String)
    (h : m.WFm) : (removeTransaction m txId).2.WFm := by
  unfold removeTransaction
  cases hf : m.transactions.find? (fun t => t.tx_id = txId) with
  | none => exact h
  | some t =>
    obtain ⟨hexc, hcon1, hcon2⟩ := h
    obtain ⟨l₁, l₂, hl, hfail, herase⟩ := find?_decomp hf
    have hexcP : m.transactions.Pairwise
        (fun a b => ∀ k ∈ a.inputKeys, k ∉ b.inputKeys) := hexc
    have hpair := hl ▸ hexcP
    rw [List.pairwise_append] at hpair
    obtain ⟨hp1, hp2, hp12⟩ := hpair
    rw [List.pairwise_cons] at hp2
    refine ⟨?_, ?_, ?_⟩
    · exact List.Pairwise.sublist (List.eraseP_sublist _) hexcP
    · intro k hk
      simp only [List.mem_filter] at hk
      obtain ⟨hks, hknt⟩ := hk
      obtain ⟨t', ht', hkt'⟩ := hcon1 k hks
      have htne : t' ≠ t := by
        rintro rfl
        exact absurd hkt' (by simpa using hknt)
      rw [hl] at ht'
      rcases List.mem_append.1 ht' with h1 | h2
      · exact ⟨t', by rw [herase]; exact List.mem_append.2 (Or.inl h1), hkt'⟩
      · rcases List.mem_cons.1 h2 with rfl | h2'
        · exact absurd rfl htne
        · exact ⟨t', by rw [herase]; exact List.mem_append.2 (Or.inr h2'), hkt'⟩
    · intro t' ht' k hkt'
      rw [herase] at ht'
      have htl : t' ∈ m.transactions := by
        rw [hl]
        rcases List.mem_append.1 ht' with h1 | h2
        · exact List.mem_append.2 (Or.inl h1)
        · exact List.mem_append.2 (Or.inr (List.mem_cons.2 (Or.inr h2)))
      have hks := hcon2 t' htl k hkt'
      rw [List.mem_filter]
      refine ⟨hks, ?_⟩
      have hknt : k ∉ t.inputKeys := by
        rcases List.mem_append.1 ht' with h1 | h2
        · exact hp12 t' h1 t (List.mem_cons.2 (Or.inl rfl)) k hkt'
        · intro hkt
          exact hp2.1 t' h2 k hkt hkt'
      simpa using hknt

theorem evictLowestFee_WFm (m : Mempool) (um : Store) (h : m.WFm) :
    (evictLowestFee m um).2.WFm := by
  unfold evictLowestFee
  cases lowestFeeFirst um m.transactions with
  | none => exact h
  | some t => exact removeTransaction_WFm m t.tx_id h

theorem addTransactionNoCap_WFm (m : Mempool) (tx : Transaction)
    (um : Store) (h : m.WFm) :
    (addTransaction.addTransactionNoCap m tx um).2.WFm := by
  unfold addTransaction.addTransactionNoCap
  cases hv : validateTransaction tx um (some m) with
  | invalid r => exact h
  | valid f =>
    obtain ⟨hexc, hcon1, hcon2⟩ := h
    have hval := (validateCore_valid_iff tx um m.spentUtxos
      (conflictingId m) f).1 hv
    obtain ⟨-, hnd, -, hns, -, -⟩ := hval
    have hdisj : ∀ a ∈ m.transactions, ∀ k ∈ a.inputKeys,
        k ∉ tx.inputKeys := by
      intro a ha k hka hktx
      obtain ⟨i, hi, rfl⟩ := by
        simpa [Transaction.inputKeys] using hktx
      exact hns i hi (hcon2 a ha i.key hka)
    refine ⟨?_, ?_, ?_⟩
    · rw [Mempool.exclusive] at hexc ⊢
      simp only [List.pairwise_append]
      exact ⟨hexc, by simp, by
        intro a ha b hb
        rcases List.mem_singleton.1 hb with rfl
        exact fun k hk => hdisj a ha k hk⟩
    · intro k hk
      rcases (mem_spentFold tx.inputKeys m.spentUtxos k).1 hk with hks | hkt
      · obtain ⟨t', ht', hkt'⟩ := hcon1 k hks
        exact ⟨t', List.mem_append.2 (Or.inl ht'), hkt'⟩
      · exact ⟨tx, List.mem_append.2 (Or.inr (by simp)), hkt⟩
    · intro t' ht' k hkt'
      rcases List.mem_append.1 ht' with h1 | h2
      · exact (mem_spentFold tx.inputKeys m.spentUtxos k).2
          (Or.inl (hcon2 t' h1 k hkt'))
      · have ht2 : t' = tx := List.mem_singleton.1 h2
        subst ht2
        exact (mem_spentFold t'.inputKeys m.spentUtxos k).2 (Or.inr hkt')

theorem addTransaction_WFm (m : Mempool) (tx : Transaction) (um : Store)
    (h : m.WFm) : (addTransaction m tx um).2.WFm := by
  unfold addTransaction
  by_cases hc : m.transactions.length ≥ m.maxSize
  · rw [if_pos hc]
    have hev := evictLowestFee_WFm m um h
    rcases hev2 : evictLowestFee m um with ⟨b, m'⟩
    rw [hev2] at hev
    cases b
    · exact hev
    · exact addTransactionNoCap_WFm m' tx um hev
  · rw [if_neg hc]
    exact addTransactionNoCap_WFm m tx um h

theorem foldRemove_WFm (txs : List Transaction) (m : Mempool)
    (h : m.WFm) :
    (txs.foldl (fun mp tx => (removeTransaction mp tx.tx_id).2) m).WFm := by
  induction txs generalizing m with
  | nil => exact h
  | cons t rest ih =>
    rw [List.foldl_cons]
    exact ih _ (removeTransaction_WFm m t.tx_id h)

theorem mineBlock_WFm (miner : String) (m : Mempool) (um : Store)
    (numTxs counter : Nat) (h : m.WFm) :
    (mineBlock miner m um numTxs counter).2.1.WFm := by
  unfold mineBlock
  by_cases he : (getTopTransactions m numTxs um).isEmpty
  · rw [if_pos he]
    exact h
  · rw [if_neg he]
    exact foldRemove_WFm _ m h

theorem reachable_WFm (m : Mempool) (h : Reachable m) : m.WFm := by
  induction h with
  | empty n => exact WFm_empty n
  | add m tx um _ ih => exact addTransaction_WFm m tx um ih
  | remove m txId _ ih => exact removeTransaction_WFm m txId ih
  | mine m miner um numTxs counter _ ih =>
    exact mineBlock_WFm miner m um numTxs counter ih

end Sim

/-! ## C7 — mempool exclusivity invariant -/

/-- C7: in every mempool state reachable through admission, removal and
mining, no input key is claimed by more than one resident transaction
(`exclusive`), and the `spent_utxos` conflict set holds exactly the keys
claimed by residents (`consistent`) — admission adds the admitted
transaction's input keys, removal releases the removed transaction's
keys. -/
theorem C7_mempool_exclusivity (m : Sim.Mempool) (h : Sim.Reachable m) :
    m.exclusive ∧ m.consistent :=
  Sim.reachable_WFm m h

/-- Witness for C7: the invariant holds in the concrete state reached by
admitting one transaction into a fresh pool. -/
theorem C7_mempool_exclusivity_witness :
    ((Sim.addTransaction ⟨[], [], 10⟩ ⟨"t", [⟨"g", 0, "x"⟩], [⟨9, "y"⟩]⟩
        [(("g", 0), ⟨10, "x"⟩)]).2).exclusive ∧
    ((Sim.addTransaction ⟨[], [], 10⟩ ⟨"t", [⟨"g", 0, "x"⟩], [⟨9, "y"⟩]⟩
        [(("g", 0), ⟨10, "x"⟩)]).2).consistent :=
  C7_mempool_exclusivity _
    (Sim.Reachable.add ⟨[], [], 10⟩ ⟨"t", [⟨"g", 0, "x"⟩], [⟨9, "y"⟩]⟩
      [(("g", 0), ⟨10, "x"⟩)] (Sim.Reachable.empty 10))

/-! ## Eviction characterization -/

namespace Sim

theorem scanPick_le (um : Store) (ts : List Transaction) (t : Transaction) :
    calculateFee
      (ts.foldl
        (fun best x =>
          if calculateFee x um < calculateFee best um then x else best) t)
      um ≤ calculateFee t um := by
  induction ts generalizing t with
  | nil => simp
  | cons x rest ih =>
    rw [List.foldl_cons]
    by_cases hx : calculateFee x um < calculateFee t um
    · rw [if_pos hx]
      exact le_trans (ih x) (le_of_lt hx)
    · rw [if_neg hx]
      exact ih t

theorem scanPick_fee (um : Store) (ts : List Transaction) (t : Transaction) :
    calculateFee
      (ts.foldl
        (fun best x =>
          if calculateFee x um < calculateFee best um then x else best) t)
      um = (ts.map (fun x => calculateFee x um)).foldl min (calculateFee t um) := by
  induction ts generalizing t with
  | nil => simp
  | cons x rest ih =>
    rw [List.foldl_cons, List.map_cons, List.foldl_cons]
    by_cases hx : calculateFee x um < calculateFee t um
    · rw [if_pos hx, ih x, min_eq_right (le_of_lt hx)]
    · rw [if_neg hx, ih t, min_eq_left (le_of_not_lt hx)]

theorem scanPick_find (um : Store) (ts : List Transaction) (t : Transaction) :
    (t :: ts).find?
        (fun x => calculateFee x um =
          calculateFee
            (ts.foldl
              (fun best x =>
                if calculateFee x um < calculateFee best um then x else best) t)
            um) =
      some
        (ts.foldl
          (fun best x =>
            if calculateFee x um < calculateFee best um then x else best) t) := by
  induction ts generalizing t with
  | nil => simp
  | cons x rest ih =>
    rw [List.foldl_cons]
    by_cases hx : calculateFee x um < calculateFee t um
    · rw [if_pos hx]
      have hr := ih x
      have hlt := lt_of_le_of_lt (scanPick_le um rest x) hx
      set r := rest.foldl
        (fun best x =>
          if calculateFee x um < calculateFee best um then x else best) x with hrdef
      have hfalse : (decide (calculateFee t um = calculateFee r um)) = false := by
        simp only [decide_eq_false_iff_not]
        exact fun hh => absurd hh.symm (ne_of_lt hlt)
      simp only [List.find?_cons, hfalse]
      exact hr
    · rw [if_neg hx]
      have hr := ih t
      have hle := scanPick_le um rest t
      set r := rest.foldl
        (fun best x =>
          if calculateFee x um < calculateFee best um then x else best) t with hrdef
      by_cases heq : calculateFee t um = calculateFee r um
      · have htrue : (decide (calculateFee t um = calculateFee r um)) = true :=
          decide_eq_true heq
        simp only [List.find?_cons, htrue] at hr ⊢
        exact hr
      · have hlt : calculateFee r um < calculateFee t um :=
          lt_of_le_of_ne hle (fun hh => heq hh.symm)
        have hxlt : calculateFee r um < calculateFee x um :=
          lt_of_lt_of_le hlt (le_of_not_lt hx)
        have hfalset : (decide (calculateFee t um = calculateFee r um)) = false := by
          simp only [decide_eq_false_iff_not]
          exact heq
        have hfalsex : (decide (calculateFee x um = calculateFee r um)) = false := by
          simp only [decide_eq_false_iff_not]
          exact fun hh => absurd hh.symm (ne_of_lt hxlt)
        simp only [List.find?_cons, hfalset] at hr
        simp only [List.find?_cons, hfalset, hfalsex]
        exact hr

theorem lowestFeeFirst_eq_firstMinFeeTx (um : Store) (l : List Transaction) :
    lowestFeeFirst um l = firstMinFeeTx um l := by
  cases l with
  | nil => rfl
  | cons t ts =>
    unfold lowestFeeFirst firstMinFeeTx
    rw [List.map_cons, show ((calculateFee t um :: ts.map
        (fun x => calculateFee x um)).min? : Option ℤ) =
      some ((ts.map (fun x => calculateFee x um)).foldl min (calculateFee t um))
      by simp [List.min?]]
    rw [← scanPick_fee um ts t]
    exact (scanPick_find um ts t).symm

theorem lowestFeeFirst_eq_none_iff (um : Store) (l : List Transaction) :
    lowestFeeFirst um l = none ↔ l = [] := by
  cases l with
  | nil => simp [lowestFeeFirst]
  | cons t ts => simp [lowestFeeFirst]

theorem find?_by_id_of_nodup (l : List Transaction) (e : Transaction)
    (hnd : (l.map Transaction.tx_id).Nodup) (he : e ∈ l) :
    l.find? (fun t => t.tx_id = e.tx_id) = some e := by
  induction l with
  | nil => simp at he
  | cons a rest ih =>
    rw [List.map_cons, List.nodup_cons] at hnd
    rcases List.mem_cons.1 he with rfl | he'
    · rw [List.find?_cons, show (decide (e.tx_id = e.tx_id)) = true by simp]
    · have hane : a.tx_id ≠ e.tx_id := by
        intro hh
        exact hnd.1 (hh ▸ List.mem_map_of_mem Transaction.tx_id he')
      rw [List.find?_cons, show (decide (a.tx_id = e.tx_id)) = false by
        simpa using hane]
      exact ih hnd.2 he'

theorem addTransactionNoCap_ne_full (m : Mempool) (tx : Transaction)
    (um : Store) :
    (addTransaction.addTransactionNoCap m tx um).1.2 ≠ .mempoolFull := by
  unfold addTransaction.addTransactionNoCap
  cases validateTransaction tx um (some m) with
  | invalid r => simp
  | valid f => simp

theorem firstMinFeeTx_mem (um : Store) (l : List Transaction)
    (e : Transaction) (h : firstMinFeeTx um l = some e) : e ∈ l := by
  unfold firstMinFeeTx at h
  cases hm : (l.map (fun t => calculateFee t um)).min? with
  | none => rw [hm] at h; simp at h
  | some mf =>
    rw [hm] at h
    exact List.mem_of_find?_eq_some h

theorem addTransaction_at_capacity (m : Mempool) (tx : Transaction)
    (um : Store) (e : Transaction)
    (hcap : m.transactions.length ≥ m.maxSize)
    (hmin : firstMinFeeTx um m.transactions = some e) :
    addTransaction m tx um =
      addTransaction.addTransactionNoCap
        (removeTransaction m e.tx_id).2 tx um := by
  unfold addTransaction evictLowestFee
  rw [if_pos hcap, lowestFeeFirst_eq_firstMinFeeTx, hmin]

theorem removeTransaction_evicts (m : Mempool) (e : Transaction)
    (hnd : (m.transactions.map Transaction.tx_id).Nodup)
    (hmem : e ∈ m.transactions) :
    (removeTransaction m e.tx_id).2.transactions.length =
        m.transactions.length - 1 ∧
      e ∉ (removeTransaction m e.tx_id).2.transactions := by
  have hfind := find?_by_id_of_nodup m.transactions e hnd hmem
  obtain ⟨l₁, l₂, hl, hfail, herase⟩ := find?_decomp hfind
  unfold removeTransaction
  rw [hfind]
  have herase2 : m.transactions.eraseP
      (fun t' => decide (t'.tx_id = e.tx_id)) = l₁ ++ l₂ := herase
  constructor
  · simp only [herase2]
    rw [hl, List.length_append, List.length_append, List.length_cons]
    omega
  · simp only [herase2]
    intro hmem2
    have hid : e.tx_id ∈ (l₁ ++ l₂).map Transaction.tx_id :=
      List.mem_map_of_mem Transaction.tx_id hmem2
    rw [hl] at hnd
    rw [List.map_append, List.map_cons] at hnd
    rw [List.map_append] at hid
    have := List.Nodup.not_mem (by
      have h2 := (List.nodup_append.1 hnd).2.1
      exact h2 : (e.tx_id :: l₂.map Transaction.tx_id).Nodup)
    rcases List.mem_append.1 hid with h1 | h2
    · have hdisj := (List.nodup_append.1 hnd).2.2
      exact hdisj h1 (List.mem_cons.2 (Or.inl rfl))
    · exact this h2

end Sim

/-! ## C8 — eviction at capacity -/

/-- C8: when `add_transaction` is called at capacity it first evicts
exactly one resident — the lowest-fee one, first-inserted among fee ties
(`firstMinFeeTx` transcribes the claim) — and only then validates and
inserts against the reduced pool; `MempoolFull` is returned exactly when
the pool is at capacity and empty, i.e. when eviction is impossible. -/
theorem C8_eviction_at_capacity (m : Sim.Mempool) (tx : Transaction)
    (um : Store) (e : Transaction) :
    (m.transactions.length ≥ m.maxSize → m.transactions = [] →
      Sim.addTransaction m tx um = ((false, .mempoolFull), m)) ∧
    (m.transactions.length ≥ m.maxSize →
      Sim.firstMinFeeTx um m.transactions = some e →
      Sim.addTransaction m tx um =
        Sim.addTransaction.addTransactionNoCap
          (Sim.removeTransaction m e.tx_id).2 tx um) ∧
    (m.transactions.length ≥ m.maxSize →
      (m.transactions.map Transaction.tx_id).Nodup →
      Sim.firstMinFeeTx um m.transactions = some e →
      (Sim.removeTransaction m e.tx_id).2.transactions.length =
          m.transactions.length - 1 ∧
        e ∉ (Sim.removeTransaction m e.tx_id).2.transactions) ∧
    ((Sim.addTransaction m tx um).1.2 = .mempoolFull ↔
      m.transactions.length ≥ m.maxSize ∧ m.transactions = []) ∧
    (m.transactions.length < m.maxSize →
      Sim.addTransaction m tx um =
        Sim.addTransaction.addTransactionNoCap m tx um) := by
  refine ⟨?_, ?_, ?_, ?_, ?_⟩
  · intro hcap hemp
    unfold Sim.addTransaction Sim.evictLowestFee
    rw [if_pos hcap, hemp]
    rfl
  · intro hcap hmin
    exact Sim.addTransaction_at_capacity m tx um e hcap hmin
  · intro hcap hnd hmin
    exact Sim.removeTransaction_evicts m e hnd
      (Sim.firstMinFeeTx_mem um m.transactions e hmin)
  · constructor
    · intro hfull
      unfold Sim.addTransaction at hfull
      by_cases hcap : m.transactions.length ≥ m.maxSize
      · rw [if_pos hcap] at hfull
        rcases hev : Sim.evictLowestFee m um with ⟨b, m'⟩
        rw [hev] at hfull
        cases b
        · refine ⟨hcap, ?_⟩
          unfold Sim.evictLowestFee at hev
          cases hlf : Sim.lowestFeeFirst um m.transactions with
          | none => exact (Sim.lowestFeeFirst_eq_none_iff um m.transactions).1 hlf
          | some t => rw [hlf] at hev; simp at hev
        · exact absurd hfull (Sim.addTransactionNoCap_ne_full m' tx um)
      · rw [if_neg hcap] at hfull
        exact absurd hfull (Sim.addTransactionNoCap_ne_full m tx um)
    · rintro ⟨hcap, hemp⟩
      unfold Sim.addTransaction Sim.evictLowestFee
      rw [if_pos hcap, hemp]
      rfl
  · intro hlt
    unfold Sim.addTransaction
    rw [if_neg (not_le.2 hlt)]

/-- Witness for C8 at a concrete at-capacity pool: admitting `b` first
evicts the (sole, hence lowest-fee) resident `a` and then runs the
validate-and-insert tail on the reduced pool, which has exactly one
fewer resident and no longer contains `a`. -/
theorem C8_eviction_at_capacity_witness :
    (Sim.addTransaction
        ⟨[⟨"a", [⟨"g", 0, "x"⟩], [⟨9, "y"⟩]⟩], [("g", 0)], 1⟩
        ⟨"b", [⟨"g", 0, "x"⟩], [⟨8, "y"⟩]⟩ [(("g", 0), ⟨10, "x"⟩)] =
      Sim.addTransaction.addTransactionNoCap
        (Sim.removeTransaction
          ⟨[⟨"a", [⟨"g", 0, "x"⟩], [⟨9, "y"⟩]⟩], [("g", 0)], 1⟩ "a").2
        ⟨"b", [⟨"g", 0, "x"⟩], [⟨8, "y"⟩]⟩ [(("g", 0), ⟨10, "x"⟩)]) ∧
    (Sim.removeTransaction
        ⟨[⟨"a", [⟨"g", 0, "x"⟩], [⟨9, "y"⟩]⟩], [("g", 0)], 1⟩
        "a").2.transactions.length = 0 :=
  ⟨(C8_eviction_at_capacity
      ⟨[⟨"a", [⟨"g", 0, "x"⟩], [⟨9, "y"⟩]⟩], [("g", 0)], 1⟩
      ⟨"b", [⟨"g", 0, "x"⟩], [⟨8, "y"⟩]⟩ [(("g", 0), ⟨10, "x"⟩)]
      ⟨"a", [⟨"g", 0, "x"⟩], [⟨9, "y"⟩]⟩).2.1 (by decide) (by decide),
   ((C8_eviction_at_capacity
      ⟨[⟨"a", [⟨"g", 0, "x"⟩], [⟨9, "y"⟩]⟩], [("g", 0)], 1⟩
      ⟨"b", [⟨"g", 0, "x"⟩], [⟨8, "y"⟩]⟩ [(("g", 0), ⟨10, "x"⟩)]
      ⟨"a", [⟨"g", 0, "x"⟩], [⟨9, "y"⟩]⟩).2.2.1 (by decide) (by decide)
      (by decide)).1⟩

/-! ## C9 — eviction is not rolled back on rejection -/

/-- C9: when admission at capacity evicts the lowest-fee resident and
the incoming transaction then fails validation, the call returns the
rejection while the pool has permanently lost the evicted resident —
the mempool is not left unchanged on error. -/
theorem C9_eviction_not_rolled_back (m : Sim.Mempool) (tx : Transaction)
    (um : Store) (e : Transaction) (r : Sim.Reason)
    (hcap : m.transactions.length ≥ m.maxSize)
    (hnd : (m.transactions.map Transaction.tx_id).Nodup)
    (hmin : Sim.firstMinFeeTx um m.transactions = some e)
    (hv : Sim.validateTransaction tx um
      (some (Sim.removeTransaction m e.tx_id).2) = .invalid r) :
    Sim.addTransaction m tx um =
        ((false, .rejected r), (Sim.removeTransaction m e.tx_id).2) ∧
      e ∉ (Sim.removeTransaction m e.tx_id).2.transactions ∧
      (Sim.removeTransaction m e.tx_id).2.transactions.length =
        m.transactions.length - 1 ∧
      (Sim.removeTransaction m e.tx_id).2 ≠ m := by
  have hmem := Sim.firstMinFeeTx_mem um m.transactions e hmin
  have hev := Sim.removeTransaction_evicts m e hnd hmem
  refine ⟨?_, hev.2, hev.1, ?_⟩
  · rw [Sim.addTransaction_at_capacity m tx um e hcap hmin]
    unfold Sim.addTransaction.addTransactionNoCap
    rw [hv]
  · intro heq
    rw [heq] at hev
    exact hev.2 hmem

/-- Witness for C9: at a capacity-1 pool holding `a`, admitting the
invalid `b` (its input UTXO does not exist) is rejected, yet `a` is
gone and the pool is empty. -/
theorem C9_eviction_not_rolled_back_witness :
    Sim.addTransaction
        ⟨[⟨"a", [⟨"g", 0, "x"⟩], [⟨9, "y"⟩]⟩], [("g", 0)], 1⟩
        ⟨"b", [⟨"nope", 0, "x"⟩], [⟨1, "y"⟩]⟩ [(("g", 0), ⟨10, "x"⟩)] =
      ((false, .rejected (.missingUtxo ("nope", 0))),
        (Sim.removeTransaction
          ⟨[⟨"a", [⟨"g", 0, "x"⟩], [⟨9, "y"⟩]⟩], [("g", 0)], 1⟩ "a").2) ∧
    (⟨"a", [⟨"g", 0, "x"⟩], [⟨9, "y"⟩]⟩ : Transaction) ∉
      (Sim.removeTransaction
        ⟨[⟨"a", [⟨"g", 0, "x"⟩], [⟨9, "y"⟩]⟩], [("g", 0)], 1⟩
        "a").2.transactions :=
  have h := C9_eviction_not_rolled_back
    ⟨[⟨"a", [⟨"g", 0, "x"⟩], [⟨9, "y"⟩]⟩], [("g", 0)], 1⟩
    ⟨"b", [⟨"nope", 0, "x"⟩], [⟨1, "y"⟩]⟩ [(("g", 0), ⟨10, "x"⟩)]
    ⟨"a", [⟨"g", 0, "x"⟩], [⟨9, "y"⟩]⟩ (.missingUtxo ("nope", 0))
    (by decide) (by decide) (by decide) (by decide)
  ⟨h.1, h.2.1⟩

/-! ## C6 — first-seen conflict policy -/

/-- Counterexample to C6 as stated: with the mempool at capacity
(`max_size = 1`), resident `a` (fee 1) claims `("g", 0)`; admitting `b`
(fee 2) claiming the same key first evicts `a` (the lowest-fee
resident), then validates `b` against the emptied pool — so `b` is
*accepted* and `a` is no longer resident, although `b` arrived later
and claims the same UTXO. -/
theorem C6_first_seen_wins_cex :
    (Sim.addTransaction
        ⟨[⟨"a", [⟨"g", 0, "x"⟩], [⟨9, "y"⟩]⟩], [("g", 0)], 1⟩
        ⟨"b", [⟨"g", 0, "x"⟩], [⟨8, "y"⟩]⟩ [(("g", 0), ⟨10, "x"⟩)]).1.1 =
        true ∧
      (⟨"a", [⟨"g", 0, "x"⟩], [⟨9, "y"⟩]⟩ : Transaction) ∉
        (Sim.addTransaction
          ⟨[⟨"a", [⟨"g", 0, "x"⟩], [⟨9, "y"⟩]⟩], [("g", 0)], 1⟩
          ⟨"b", [⟨"g", 0, "x"⟩], [⟨8, "y"⟩]⟩
          [(("g", 0), ⟨10, "x"⟩)]).2.transactions ∧
      Sim.calculateFee ⟨"a", [⟨"g", 0, "x"⟩], [⟨9, "y"⟩]⟩
          [(("g", 0), ⟨10, "x"⟩)] <
        Sim.calculateFee ⟨"b", [⟨"g", 0, "x"⟩], [⟨8, "y"⟩]⟩
          [(("g", 0), ⟨10, "x"⟩)] := by
  decide

/-- C6 (amended): first-seen wins *whenever the admit does not trigger
the capacity eviction*: if pending `A` claiming `U` is resident in a
well-formed pool strictly below capacity, a later admit of any `B` also
claiming `U` is rejected regardless of fee, the pool (hence `A`'s
residency) is unchanged, and when `B` passes the earlier rules the
rejection is a `MempoolConflict` naming a conflicting transaction id. -/
theorem C6_first_seen_wins_amended (m : Sim.Mempool) (A B : Transaction)
    (um : Store) (U : Key)
    (hwf : m.exclusive ∧ m.consistent)
    (hA : A ∈ m.transactions) (hAU : U ∈ A.inputKeys)
    (hBU : U ∈ B.inputKeys)
    (hcap : m.transactions.length < m.maxSize) :
    (Sim.addTransaction m B um).1.1 = false ∧
      (Sim.addTransaction m B um).2 = m ∧
      A ∈ (Sim.addTransaction m B um).2.transactions ∧
      ((∀ o ∈ B.outputs, ¬ o.amount < 0) → B.inputKeys.Nodup →
        (∀ i ∈ B.inputs, Sim.badInput um i = false) →
        ∃ k cid, (Sim.addTransaction m B um).1.2 =
          .rejected (.mempoolConflict k (some cid))) := by
  have hspent : U ∈ m.spentUtxos := hwf.2.2 A hA U hAU
  have hnocap : Sim.addTransaction m B um =
      Sim.addTransaction.addTransactionNoCap m B um := by
    unfold Sim.addTransaction
    rw [if_neg (not_le.2 hcap)]
  obtain ⟨iB, hiB, hiBkey⟩ : ∃ i ∈ B.inputs, i.key = U := by
    simpa [Transaction.inputKeys] using hBU
  have hnotvalid : ∀ f, Sim.validateTransaction B um (some m) ≠ .valid f := by
    intro f hv
    have := ((Sim.validateCore_valid_iff B um m.spentUtxos
      (Sim.conflictingId m) f).1 hv).2.2.2.1
    exact this iB hiB (hiBkey ▸ hspent)
  have hmain : (Sim.addTransaction m B um).1.1 = false ∧
      (Sim.addTransaction m B um).2 = m := by
    rw [hnocap]
    unfold Sim.addTransaction.addTransactionNoCap
    cases hv : Sim.validateTransaction B um (some m) with
    | invalid r => exact ⟨rfl, rfl⟩
    | valid f => exact absurd hv (hnotvalid f)
  refine ⟨hmain.1, hmain.2, by rw [hmain.2]; exact hA, ?_⟩
  intro hnn hndk hbad
  have hn : Sim.findNegOutput B.outputs = none :=
    (Sim.findNegOutput_eq_none_iff B.outputs).2
      (by rw [List.any_eq_false]; intro o ho; simpa using hnn o ho)
  have hd : Sim.firstDup B.inputs [] = none :=
    (Sim.firstDup_eq_none_iff B.inputs []).2 ⟨hndk, by simp⟩
  have hf : B.inputs.find? (Sim.badInput um) = none :=
    List.find?_eq_none.2 (fun i hi => by simp [hbad i hi])
  cases hc : Sim.firstConflict B.inputs m.spentUtxos with
  | none =>
    exact absurd ((Sim.firstConflict_eq_none_iff B.inputs m.spentUtxos).1 hc
      iB hiB) (by rw [hiBkey]; exact fun hh => hh hspent)
  | some k =>
    have hkspent : k ∈ m.spentUtxos := by
      unfold Sim.firstConflict at hc
      rcases hfind : B.inputs.find? (fun i => decide (i.key ∈ m.spentUtxos))
        with - | j
      · rw [hfind] at hc; simp at hc
      · rw [hfind] at hc
        have hj := List.find?_some hfind
        have : j.key = k := by simpa using hc
        rw [← this]
        simpa using hj
    obtain ⟨t, ht, hkt⟩ := hwf.2.1 k hkspent
    have hfilter : t ∈ m.transactions.filter (fun t => k ∈ t.inputKeys) :=
      List.mem_filter.2 ⟨ht, by simpa using hkt⟩
    have hlast : (m.transactions.filter
        (fun t => k ∈ t.inputKeys)).getLast? ≠ none := by
      intro hnone
      rw [List.getLast?_eq_none_iff] at hnone
      exact List.ne_nil_of_mem hfilter hnone
    obtain ⟨t', hlast'⟩ :=
      Option.ne_none_iff_exists'.1 hlast
    refine ⟨k, t'.tx_id, ?_⟩
    rw [hnocap]
    unfold Sim.addTransaction.addTransactionNoCap
    have hval : Sim.validateTransaction B um (some m) =
        .invalid (.mempoolConflict k (some t'.tx_id)) := by
      show Sim.validateCore B um m.spentUtxos (Sim.conflictingId m) =
        .invalid (.mempoolConflict k (some t'.tx_id))
      unfold Sim.validateCore
      rw [hn, hd, Sim.checkInputs_find_none um B.inputs 0 hf, hc]
      have : Sim.conflictingId m k = some t'.tx_id := by
        unfold Sim.conflictingId
        rw [hlast']
        rfl
      simp only [this]
    rw [hval]

/-- Witness for C6 (amended) at a below-capacity pool: `b` is rejected
with a `MempoolConflict` naming a conflicting id and `a` stays
resident. -/
theorem C6_first_seen_wins_amended_witness :
    (Sim.addTransaction
        ⟨[⟨"a", [⟨"g", 0, "x"⟩], [⟨9, "y"⟩]⟩], [("g", 0)], 50⟩
        ⟨"b", [⟨"g", 0, "x"⟩], [⟨8, "y"⟩]⟩ [(("g", 0), ⟨10, "x"⟩)]).1.1 =
        false ∧
    (⟨"a", [⟨"g", 0, "x"⟩], [⟨9, "y"⟩]⟩ : Transaction) ∈
      (Sim.addTransaction
        ⟨[⟨"a", [⟨"g", 0, "x"⟩], [⟨9, "y"⟩]⟩], [("g", 0)], 50⟩
        ⟨"b", [⟨"g", 0, "x"⟩], [⟨8, "y"⟩]⟩
        [(("g", 0), ⟨10, "x"⟩)]).2.transactions ∧
    (∃ k cid, (Sim.addTransaction
        ⟨[⟨"a", [⟨"g", 0, "x"⟩], [⟨9, "y"⟩]⟩], [("g", 0)], 50⟩
        ⟨"b", [⟨"g", 0, "x"⟩], [⟨8, "y"⟩]⟩ [(("g", 0), ⟨10, "x"⟩)]).1.2 =
          .rejected (.mempoolConflict k (some cid))) :=
  have h := C6_first_seen_wins_amended
    ⟨[⟨"a", [⟨"g", 0, "x"⟩], [⟨9, "y"⟩]⟩], [("g", 0)], 50⟩
    ⟨"a", [⟨"g", 0, "x"⟩], [⟨9, "y"⟩]⟩ ⟨"b", [⟨"g", 0, "x"⟩], [⟨8, "y"⟩]⟩
    [(("g", 0), ⟨10, "x"⟩)] ("g", 0) (by decide) (by decide) (by decide)
    (by decide) (by decide)
  ⟨h.1, h.2.2.1, h.2.2.2 (by decide) (by decide) (by decide)⟩

/-! ## Sorting and fee lemmas -/

namespace Sim

theorem mem_insertFeeDesc (p q : Transaction × ℤ)
    (l : List (Transaction × ℤ)) :
    q ∈ insertFeeDesc p l ↔ q = p ∨ q ∈ l := by
  induction l with
  | nil => simp [insertFeeDesc]
  | cons x xs ih =>
    unfold insertFeeDesc
    by_cases h : x.2 < p.2
    · rw [if_pos h]
      simp [List.mem_cons]
    · rw [if_neg h]
      simp only [List.mem_cons, ih]
      tauto

theorem insertFeeDesc_pairwise (p : Transaction × ℤ)
    (l : List (Transaction × ℤ))
    (h : l.Pairwise (fun a b => b.2 ≤ a.2)) :
    (insertFeeDesc p l).Pairwise (fun a b => b.2 ≤ a.2) := by
  induction l with
  | nil => simp [insertFeeDesc]
  | cons x xs ih =>
    rw [List.pairwise_cons] at h
    unfold insertFeeDesc
    by_cases hx : x.2 < p.2
    · rw [if_pos hx, List.pairwise_cons]
      refine ⟨?_, List.pairwise_cons.2 h⟩
      intro q hq
      rcases List.mem_cons.1 hq with rfl | hq'
      · exact le_of_lt hx
      · exact le_trans (h.1 q hq') (le_of_lt hx)
    · rw [if_neg hx, List.pairwise_cons]
      refine ⟨?_, ih h.2⟩
      intro q hq
      rcases (mem_insertFeeDesc p q xs).1 hq with rfl | hq'
      · exact le_of_not_lt hx
      · exact h.1 q hq'

theorem insertFeeDesc_perm (p : Transaction × ℤ)
    (l : List (Transaction × ℤ)) :
    List.Perm (insertFeeDesc p l) (p :: l) := by
  induction l with
  | nil => simp [insertFeeDesc]
  | cons x xs ih =>
    unfold insertFeeDesc
    by_cases hx : x.2 < p.2
    · rw [if_pos hx]
    · rw [if_neg hx]
      exact (ih.cons x).trans (List.Perm.swap p x xs)

theorem sortFeeDesc_perm (l : List (Transaction × ℤ)) :
    List.Perm (sortFeeDesc l) l := by
  induction l with
  | nil => rfl
  | cons x xs ih =>
    unfold sortFeeDesc
    rw [List.foldr_cons]
    exact (insertFeeDesc_perm x _).trans
      (List.Perm.cons x (by simpa [sortFeeDesc] using ih))

theorem sortFeeDesc_pairwise (l : List (Transaction × ℤ)) :
    (sortFeeDesc l).Pairwise (fun a b => b.2 ≤ a.2) := by
  induction l with
  | nil => simp [sortFeeDesc]
  | cons x xs ih =>
    unfold sortFeeDesc
    rw [List.foldr_cons]
    exact insertFeeDesc_pairwise x _ (by simpa [sortFeeDesc] using ih)

theorem mem_sortFeeDesc (p : Transaction × ℤ) (l : List (Transaction × ℤ)) :
    p ∈ sortFeeDesc l ↔ p ∈ l :=
  (sortFeeDesc_perm l).mem_iff

theorem foldAddExisting (um : Store) (l : List TxInput) (a : ℤ) :
    l.foldl
        (fun acc i =>
          match Store.getUtxo um i.key with
          | some u => acc + u.amount
          | none => acc) a =
      a + ((l.filter (fun i => Store.existsUtxo um i.key)).map
        (fun i => ((Store.getUtxo um i.key).map UTXOData.amount).getD 0)).sum := by
  induction l generalizing a with
  | nil => simp
  | cons i rest ih =>
    rw [List.foldl_cons]
    cases hg : Store.getUtxo um i.key with
    | none =>
      have hex : Store.existsUtxo um i.key = false := by
        simp [Store.existsUtxo, hg]
      simp only [hg, List.filter_cons, hex]
      exact ih a
    | some u =>
      have hex : Store.existsUtxo um i.key = true := by
        simp [Store.existsUtxo, hg]
      simp only [hg, List.filter_cons, hex, if_pos, List.map_cons,
        List.sum_cons]
      rw [ih (a + u.amount)]
      have hgd : ((Option.map UTXOData.amount (some u)).getD 0) = u.amount :=
        rfl
      rw [hgd]
      ring

end Sim

/-! ## C10 — fee of transactions with missing inputs -/

/-- C10: `calculate_fee` never fails on a missing input UTXO — it sums
only the amounts of the inputs that exist in the store, minus the sum of
the outputs (so the result can be negative, witnessed below), and this
is exactly the value the mempool's fee ordering
(`get_top_transactions`, proved fee-descending) and the miner's
per-transaction fee accumulation (`commitStep`) use. -/
theorem C10_calculate_fee_partial (tx : Transaction) (um : Store)
    (m : Sim.Mempool) (n : Nat) (c : ℤ) (txs : List Transaction)
    (s : Store) :
    Sim.calculateFee tx um =
        Sim.existingInputSum um tx - Sim.totalOutput tx ∧
      (Sim.getTopTransactions m n um).Pairwise
        (fun a b => Sim.calculateFee b um ≤ Sim.calculateFee a um) ∧
      (Sim.commitStep (s, c, txs) tx).2.1 = c + Sim.calculateFee tx s ∧
      (∃ badTx badStore, Sim.calculateFee badTx badStore < 0) := by
  refine ⟨?_, ?_, ?_, ?_⟩
  · unfold Sim.calculateFee Sim.existingInputSum
    rw [Sim.foldAddExisting um tx.inputs 0, zero_add]
  · have hsorted := Sim.sortFeeDesc_pairwise (Sim.withFees um m.transactions)
    have htake := List.Pairwise.sublist
      (List.take_sublist n (Sim.sortFeeDesc (Sim.withFees um m.transactions)))
      hsorted
    have htag : ∀ p ∈ (Sim.sortFeeDesc
        (Sim.withFees um m.transactions)).take n,
        p.2 = Sim.calculateFee p.1 um := by
      intro p hp
      have hmem : p ∈ Sim.sortFeeDesc (Sim.withFees um m.transactions) :=
        (List.take_sublist n _).subset hp
      have hpw := (Sim.mem_sortFeeDesc _ _).1 hmem
      unfold Sim.withFees at hpw
      obtain ⟨t, ht, rfl⟩ := List.mem_map.1 hpw
      rfl
    unfold Sim.getTopTransactions
    rw [List.pairwise_map]
    exact List.Pairwise.imp_of_mem
      (fun ha hb hr => by rw [← htag _ ha, ← htag _ hb]; exact hr) htake
  · rfl
  · exact ⟨⟨"t", [⟨"missing", 0, "o"⟩], [⟨5, "y"⟩]⟩, [], by decide⟩

/-! ## Greedy selection lemmas -/

namespace Sim

theorem greedySelect_prefix (needed acc : ℤ) (l : List (Key × UTXOData)) :
    ∃ rest, l = greedySelect needed acc l ++ rest := by
  induction l generalizing acc with
  | nil => exact ⟨[], rfl⟩
  | cons u us ih =>
    unfold greedySelect
    by_cases h : acc + u.2.amount ≥ needed
    · rw [if_pos h]
      exact ⟨us, rfl⟩
    · rw [if_neg h]
      obtain ⟨rest, hrest⟩ := ih (acc + u.2.amount)
      exact ⟨rest, by rw [List.cons_append, ← hrest]⟩

theorem greedySelect_reaches_or_all (needed acc : ℤ)
    (l : List (Key × UTXOData)) :
    acc + ((greedySelect needed acc l).map (fun u => u.2.amount)).sum ≥
        needed ∨
      greedySelect needed acc l = l := by
  induction l generalizing acc with
  | nil => exact Or.inr rfl
  | cons u us ih =>
    unfold greedySelect
    by_cases h : acc + u.2.amount ≥ needed
    · rw [if_pos h]
      left
      simpa using h
    · rw [if_neg h]
      rcases ih (acc + u.2.amount) with hge | hall
      · left
        rw [List.map_cons, List.sum_cons]
        linarith [hge]
      · right
        rw [hall]

end Sim

/-! ## C5 — coin selection -/

theorem createTransaction_shape (st : Api.ServiceState)
    (sender recipient : String) (amount fee : ℤ) (freshId : String) :
    Api.createTransaction st sender recipient amount fee freshId =
      (if ((Sim.greedySelect (amount + fee) 0
            ((Store.forOwner st.utxos sender).filter
              (fun u => u.1 ∉ Api.spentInMempool st))).map
          (fun u => u.2.amount)).sum < amount + fee
       then ((none, .insufficientFunds
          ((Sim.greedySelect (amount + fee) 0
            ((Store.forOwner st.utxos sender).filter
              (fun u => u.1 ∉ Api.spentInMempool st))).map
           (fun u => u.2.amount)).sum (amount + fee)), st)
       else
        match Api.validateTransaction st
          ⟨freshId,
           (Sim.greedySelect (amount + fee) 0
             ((Store.forOwner st.utxos sender).filter
               (fun u => u.1 ∉ Api.spentInMempool st))).map
             (fun u => ⟨u.1.1, u.1.2, sender⟩),
           ⟨amount, recipient⟩ ::
             (if ((Sim.greedySelect (amount + fee) 0
                  ((Store.forOwner st.utxos sender).filter
                    (fun u => u.1 ∉ Api.spentInMempool st))).map
                (fun u => u.2.amount)).sum - amount - fee > 0
              then [⟨((Sim.greedySelect (amount + fee) 0
                  ((Store.forOwner st.utxos sender).filter
                    (fun u => u.1 ∉ Api.spentInMempool st))).map
                 (fun u => u.2.amount)).sum - amount - fee, sender⟩]
              else [])⟩ with
        | .invalid r => ((none, .rejected r), st)
        | .valid _ =>
          ((some ⟨freshId,
             (Sim.greedySelect (amount + fee) 0
               ((Store.forOwner st.utxos sender).filter
                 (fun u => u.1 ∉ Api.spentInMempool st))).map
               (fun u => ⟨u.1.1, u.1.2, sender⟩),
             ⟨amount, recipient⟩ ::
               (if ((Sim.greedySelect (amount + fee) 0
                    ((Store.forOwner st.utxos sender).filter
                      (fun u => u.1 ∉ Api.spentInMempool st))).map
                  (fun u => u.2.amount)).sum - amount - fee > 0
                then [⟨((Sim.greedySelect (amount + fee) 0
                    ((Store.forOwner st.utxos sender).filter
                      (fun u => u.1 ∉ Api.spentInMempool st))).map
                   (fun u => u.2.amount)).sum - amount - fee, sender⟩]
                else [])⟩, .created),
           Api.addToMempool st
             ⟨freshId,
              (Sim.greedySelect (amount + fee) 0
                ((Store.forOwner st.utxos sender).filter
                  (fun u => u.1 ∉ Api.spentInMempool st))).map
                (fun u => ⟨u.1.1, u.1.2, sender⟩),
              ⟨amount, recipient⟩ ::
                (if ((Sim.greedySelect (amount + fee) 0
                     ((Store.forOwner st.utxos sender).filter
                       (fun u => u.1 ∉ Api.spentInMempool st))).map
                   (fun u => u.2.amount)).sum - amount - fee > 0
                 then [⟨((Sim.greedySelect (amount + fee) 0
                     ((Store.forOwner st.utxos sender).filter
                       (fun u => u.1 ∉ Api.spentInMempool st))).map
                    (fun u => u.2.amount)).sum - amount - fee, sender⟩]
                 else [])⟩)) := rfl

theorem createSimpleTransaction_shape (sender recipient : String)
    (amount : ℤ) (um : Store) (fee : ℤ) (freshId : String) :
    Sim.createSimpleTransaction sender recipient amount um fee freshId =
      (if (Store.forOwner um sender).isEmpty then none
       else if ((Sim.greedySelect (amount + fee) 0
             (Store.forOwner um sender)).map
           (fun u => u.2.amount)).sum < amount + fee then none
       else some ⟨freshId,
         (Sim.greedySelect (amount + fee) 0
           (Store.forOwner um sender)).map
           (fun u => ⟨u.1.1, u.1.2, sender⟩),
         ⟨amount, recipient⟩ ::
           (if ((Sim.greedySelect (amount + fee) 0
                (Store.forOwner um sender)).map
              (fun u => u.2.amount)).sum - amount - fee > 0
            then [⟨((Sim.greedySelect (amount + fee) 0
                (Store.forOwner um sender)).map
               (fun u => u.2.amount)).sum - amount - fee, sender⟩]
            else [])⟩) := rfl

/-- Counterexample to C5 as stated: `create_simple_transaction`
(`src/src/transaction.py`) takes no mempool argument and applies no
claimed-key pre-filter — with `("g", 0)` claimed by the pending
transaction `p` resident in a mempool, the builder still selects
`("g", 0)` for its transfer. -/
theorem C5_build_transfer_cex :
    Sim.createSimpleTransaction "alice" "bob" 5
        [(("g", 0), ⟨10, "alice"⟩)] 1 "n1" =
      some ⟨"n1", [⟨"g", 0, "alice"⟩], [⟨5, "bob"⟩, ⟨4, "alice"⟩]⟩ ∧
    ("g", 0) ∈ (⟨"n1", [⟨"g", 0, "alice"⟩],
      [⟨5, "bob"⟩, ⟨4, "alice"⟩]⟩ : Transaction).inputKeys ∧
    ("g", 0) ∈ (⟨[⟨"p", [⟨"g", 0, "alice"⟩], []⟩], [("g", 0)],
      50⟩ : Sim.Mempool).spentUtxos ∧
    ("g", 0) ∈ (⟨"p", [⟨"g", 0, "alice"⟩], []⟩ : Transaction).inputKeys := by
  decide

/-- C5 (amended): the API builder (`BitcoinService.create_transaction`)
selects only the sender's UTXOs not already claimed by a pending
mempool transaction, accumulating a greedy prefix of the store's
owner-filtered listing until the total reaches `amount + fee`; it
returns `InsufficientFunds` exactly with the sender's available total
below that threshold, and on success emits one output of `amount` to
the recipient plus a change output of `total − amount − fee` to the
sender only when strictly positive.  The src builder
(`create_simple_transaction`) satisfies the same greedy/threshold/output
characterization but over the sender's *unfiltered* listing: it applies
no mempool pre-filter (see the counterexample). -/
theorem C5_build_transfer_amended (st : Api.ServiceState) (um : Store)
    (sender recipient freshId : String) (amount fee : ℤ) :
    (∀ tx msg st₂,
      Api.createTransaction st sender recipient amount fee freshId =
          ((some tx, msg), st₂) →
      tx.tx_id = freshId ∧
      (∀ i ∈ tx.inputs, i.owner = sender ∧
        i.key ∉ Api.spentInMempool st ∧
        i.key ∈ (Store.forOwner st.utxos sender).map Prod.fst) ∧
      (∃ rest, ((Store.forOwner st.utxos sender).filter
          (fun u => u.1 ∉ Api.spentInMempool st)).map Prod.fst =
        tx.inputs.map TxInput.key ++ rest) ∧
      (∃ totalSel, totalSel ≥ amount + fee ∧
        tx.outputs = ⟨amount, recipient⟩ ::
          (if totalSel - amount - fee > 0
           then [⟨totalSel - amount - fee, sender⟩] else []))) ∧
    (∀ got need st₂,
      Api.createTransaction st sender recipient amount fee freshId =
          ((none, .insufficientFunds got need), st₂) →
      st₂ = st ∧ need = amount + fee ∧
      (((Store.forOwner st.utxos sender).filter
          (fun u => u.1 ∉ Api.spentInMempool st)).map
        (fun u => u.2.amount)).sum < amount + fee) ∧
    (∀ tx,
      Sim.createSimpleTransaction sender recipient amount um fee freshId =
          some tx →
      (∃ rest, (Store.forOwner um sender).map Prod.fst =
        tx.inputs.map TxInput.key ++ rest) ∧
      (∀ i ∈ tx.inputs, i.owner = sender) ∧
      (∃ totalSel, totalSel ≥ amount + fee ∧
        tx.outputs = ⟨amount, recipient⟩ ::
          (if totalSel - amount - fee > 0
           then [⟨totalSel - amount - fee, sender⟩] else []))) ∧
    (Sim.createSimpleTransaction sender recipient amount um fee freshId =
        none →
      Store.forOwner um sender = [] ∨
      ((Store.forOwner um sender).map (fun u => u.2.amount)).sum <
        amount + fee) := by
  refine ⟨?_, ?_, ?_, ?_⟩
  · intro tx msg st₂ h
    rw [createTransaction_shape] at h
    by_cases hins : ((Sim.greedySelect (amount + fee) 0
        ((Store.forOwner st.utxos sender).filter
          (fun u => u.1 ∉ Api.spentInMempool st))).map
        (fun u => u.2.amount)).sum < amount + fee
    · rw [if_pos hins] at h
      simp at h
    · rw [if_neg hins] at h
      cases hv : Api.validateTransaction st ⟨freshId,
          (Sim.greedySelect (amount + fee) 0
            ((Store.forOwner st.utxos sender).filter
              (fun u => u.1 ∉ Api.spentInMempool st))).map
            (fun u => ⟨u.1.1, u.1.2, sender⟩),
          ⟨amount, recipient⟩ ::
            (if ((Sim.greedySelect (amount + fee) 0
                 ((Store.forOwner st.utxos sender).filter
                   (fun u => u.1 ∉ Api.spentInMempool st))).map
               (fun u => u.2.amount)).sum - amount - fee > 0
             then [⟨((Sim.greedySelect (amount + fee) 0
                 ((Store.forOwner st.utxos sender).filter
                   (fun u => u.1 ∉ Api.spentInMempool st))).map
                (fun u => u.2.amount)).sum - amount - fee, sender⟩]
             else [])⟩ with
    | invalid r =>
      rw [hv] at h
      simp at h
    | valid f =>
      rw [hv] at h
      simp only [Prod.mk.injEq, Option.some.injEq] at h
      have htx := h.1.1.symm
      obtain ⟨rest, hpre⟩ :=
        Sim.greedySelect_prefix (amount + fee)
          0 ((Store.forOwner st.utxos sender).filter
            (fun u => u.1 ∉ Api.spentInMempool st))
      have hsub : ∀ u ∈ Sim.greedySelect (amount + fee) 0
          ((Store.forOwner st.utxos sender).filter
            (fun u => u.1 ∉ Api.spentInMempool st)),
          u ∈ (Store.forOwner st.utxos sender).filter
            (fun u => u.1 ∉ Api.spentInMempool st) := by
        intro u hu
        rw [hpre]
        exact List.mem_append.2 (Or.inl hu)
      refine ⟨by rw [htx], ?_, ?_, ?_⟩
      · intro i hi
        rw [htx] at hi
        obtain ⟨u, hu, rfl⟩ := List.mem_map.1 hi
        have hav := hsub u hu
        have hmf := List.mem_filter.1 hav
        refine ⟨rfl, ?_, ?_⟩
        · simpa [TxInput.key] using hmf.2
        · exact List.mem_map.2 ⟨u, hmf.1, rfl⟩
      · refine ⟨rest.map Prod.fst, ?_⟩
        rw [htx]
        simp only [List.map_map]
        rw [show (TxInput.key ∘ fun u : Key × UTXOData =>
          (⟨u.1.1, u.1.2, sender⟩ : TxInput)) = Prod.fst from
          funext (fun u => rfl)]
        rw [← List.map_append, ← hpre]
      · refine ⟨((Sim.greedySelect (amount + fee) 0
            ((Store.forOwner st.utxos sender).filter
              (fun u => u.1 ∉ Api.spentInMempool st))).map
            (fun u => u.2.amount)).sum, le_of_not_lt hins, ?_⟩
        rw [htx]
  · intro got need st₂ h
    rw [createTransaction_shape] at h
    by_cases hins : ((Sim.greedySelect (amount + fee) 0
        ((Store.forOwner st.utxos sender).filter
          (fun u => u.1 ∉ Api.spentInMempool st))).map
        (fun u => u.2.amount)).sum < amount + fee
    · rw [if_pos hins] at h
      simp only [Prod.mk.injEq] at h
      refine ⟨h.2.symm, ?_, ?_⟩
      · have := h.1.2
        cases this with
        | refl => rfl
      · rcases Sim.greedySelect_reaches_or_all (amount + fee) 0
          ((Store.forOwner st.utxos sender).filter
            (fun u => u.1 ∉ Api.spentInMempool st)) with hge | hall
        · rw [zero_add] at hge
          exact absurd hge (not_le.2 hins)
        · rw [← hall]
          exact hins
    · rw [if_neg hins] at h
      cases hv : Api.validateTransaction st ⟨freshId,
          (Sim.greedySelect (amount + fee) 0
            ((Store.forOwner st.utxos sender).filter
              (fun u => u.1 ∉ Api.spentInMempool st))).map
            (fun u => ⟨u.1.1, u.1.2, sender⟩),
          ⟨amount, recipient⟩ ::
            (if ((Sim.greedySelect (amount + fee) 0
                 ((Store.forOwner st.utxos sender).filter
                   (fun u => u.1 ∉ Api.spentInMempool st))).map
               (fun u => u.2.amount)).sum - amount - fee > 0
             then [⟨((Sim.greedySelect (amount + fee) 0
                 ((Store.forOwner st.utxos sender).filter
                   (fun u => u.1 ∉ Api.spentInMempool st))).map
                (fun u => u.2.amount)).sum - amount - fee, sender⟩]
             else [])⟩ with
      | invalid r =>
        rw [hv] at h
        simp at h
      | valid f =>
        rw [hv] at h
        simp at h
  · intro tx h
    rw [createSimpleTransaction_shape] at h
    by_cases hemp : (Store.forOwner um sender).isEmpty
    · rw [if_pos hemp] at h
      simp at h
    · rw [if_neg hemp] at h
      by_cases hins : ((Sim.greedySelect (amount + fee) 0
          (Store.forOwner um sender)).map
          (fun u => u.2.amount)).sum < amount + fee
      · rw [if_pos hins] at h
        simp at h
      · rw [if_neg hins] at h
        have htx : tx = ⟨freshId,
            (Sim.greedySelect (amount + fee) 0
              (Store.forOwner um sender)).map
              (fun u => ⟨u.1.1, u.1.2, sender⟩),
            ⟨amount, recipient⟩ ::
              (if ((Sim.greedySelect (amount + fee) 0
                   (Store.forOwner um sender)).map
                 (fun u => u.2.amount)).sum - amount - fee > 0
               then [⟨((Sim.greedySelect (amount + fee) 0
                   (Store.forOwner um sender)).map
                  (fun u => u.2.amount)).sum - amount - fee, sender⟩]
               else [])⟩ := by
          simpa using h.symm
        obtain ⟨rest, hpre⟩ :=
          Sim.greedySelect_prefix (amount + fee) 0 (Store.forOwner um sender)
        refine ⟨⟨rest.map Prod.fst, ?_⟩, ?_, ?_⟩
        · rw [htx]
          simp only [List.map_map]
          rw [show (TxInput.key ∘ fun u : Key × UTXOData =>
            (⟨u.1.1, u.1.2, sender⟩ : TxInput)) = Prod.fst from
            funext (fun u => rfl)]
          rw [← List.map_append, ← hpre]
        · intro i hi
          rw [htx] at hi
          obtain ⟨u, hu, rfl⟩ := List.mem_map.1 hi
          rfl
        · refine ⟨((Sim.greedySelect (amount + fee) 0
              (Store.forOwner um sender)).map
              (fun u => u.2.amount)).sum, le_of_not_lt hins, ?_⟩
          rw [htx]
  · intro h
    rw [createSimpleTransaction_shape] at h
    by_cases hemp : (Store.forOwner um sender).isEmpty
    · exact Or.inl (List.isEmpty_iff.1 hemp)
    · rw [if_neg hemp] at h
      by_cases hins : ((Sim.greedySelect (amount + fee) 0
          (Store.forOwner um sender)).map
          (fun u => u.2.amount)).sum < amount + fee
      · rcases Sim.greedySelect_reaches_or_all (amount + fee) 0
          (Store.forOwner um sender) with hge | hall
        · rw [zero_add] at hge
          exact absurd hge (not_le.2 hins)
        · right
          rw [← hall]
          exact hins
      · rw [if_neg hins] at h
        simp at h

/-- Witness for C5 (amended), on the `InsufficientFunds` clause: asking
for 50+1 against a single 10-coin UTXO fails, and the theorem yields
that the sender's available (unclaimed) total is below the threshold. -/
theorem C5_build_transfer_amended_witness :
    (((Store.forOwner ([(("g", 0), ⟨10, "alice"⟩)] : Store) "alice").filter
        (fun u => u.1 ∉ Api.spentInMempool
          ⟨[(("g", 0), ⟨10, "alice"⟩)], [], []⟩)).map
      (fun u => u.2.amount)).sum < 50 + 1 :=
  ((C5_build_transfer_amended ⟨[(("g", 0), ⟨10, "alice"⟩)], [], []⟩ []
      "alice" "bob" "n2" 50 1).2.1 10 51
    ⟨[(("g", 0), ⟨10, "alice"⟩)], [], []⟩ (by decide)).2.2

theorem mineBlock_shape (st : Api.ServiceState) (miner : String)
    (numTxs ts : Nat) :
    Api.mineBlock st miner numTxs ts =
      (if st.mempool.isEmpty then ((none, .emptyMempool), st)
       else if ((Sim.sortFeeDesc (Api.sift st st.mempool).1).take numTxs).isEmpty
       then ((none, .noValidTransactions), (Api.sift st st.mempool).2)
       else
        ((some (Api.mkBlockOf (Api.sift st st.mempool).2 miner ts (((Sim.sortFeeDesc (Api.sift st st.mempool).1).take numTxs).map Prod.fst) ((((Sim.sortFeeDesc (Api.sift st st.mempool).1).take numTxs).map Prod.snd).sum)), .mined),
         { utxos := Store.addUtxo (Api.commitAll (Api.sift st st.mempool).2 (((Sim.sortFeeDesc (Api.sift st st.mempool).1).take numTxs).map Prod.fst)).utxos ((Api.coinbaseTxOf (Api.sift st st.mempool).2 miner ts ((((Sim.sortFeeDesc (Api.sift st st.mempool).1).take numTxs).map Prod.snd).sum)).tx_id, 0)
              ⟨((((Sim.sortFeeDesc (Api.sift st st.mempool).1).take numTxs).map Prod.snd).sum), miner⟩,
            mempool := (Api.commitAll (Api.sift st st.mempool).2 (((Sim.sortFeeDesc (Api.sift st st.mempool).1).take numTxs).map Prod.fst)).mempool,
            chain := (Api.commitAll (Api.sift st st.mempool).2 (((Sim.sortFeeDesc (Api.sift st st.mempool).1).take numTxs).map Prod.fst)).chain ++ [(Api.mkBlockOf (Api.sift st st.mempool).2 miner ts (((Sim.sortFeeDesc (Api.sift st st.mempool).1).take numTxs).map Prod.fst) ((((Sim.sortFeeDesc (Api.sift st st.mempool).1).take numTxs).map Prod.snd).sum))] })) := rfl

/-! ## C3 — coinbase synthesis -/

/-- Counterexample to C3 as stated: the src miner
(`block.py mine_block`) creates the coinbase only inside
`if total_fees > 0`.  Mining a single zero-fee transaction succeeds,
yet no coinbase transaction is synthesized and no coinbase UTXO is
minted. -/
theorem C3_coinbase_cex :
    (Sim.mineBlock "M" ⟨[⟨"t", [⟨"g", 0, "x"⟩], [⟨10, "y"⟩]⟩],
        [("g", 0)], 50⟩ [(("g", 0), ⟨10, "x"⟩)] 5 0).1 =
      some ⟨1, "0", "M", [⟨"t", [⟨"g", 0, "x"⟩], [⟨10, "y"⟩]⟩], 0, none⟩ ∧
    Store.getUtxo
      (Sim.mineBlock "M" ⟨[⟨"t", [⟨"g", 0, "x"⟩], [⟨10, "y"⟩]⟩],
        [("g", 0)], 50⟩ [(("g", 0), ⟨10, "x"⟩)] 5 0).2.2.1
      ("coinbase_1", 0) = none := by
  decide

/-- C3 (amended): every successful mine call of the API service
synthesizes a coinbase transaction with zero inputs and exactly one
output equal to the block's `total_fees` — also when `total_fees` is
zero — appends it last, and mints its UTXO at `(coinbase_id, 0)` to the
miner.  The src miner does the same only when `total_fees` is strictly
positive; when it creates no coinbase the block's `total_fees` field is
left at zero. -/
theorem C3_coinbase_amended (st : Api.ServiceState) (miner : String)
    (numTxs ts : Nat) (m : Sim.Mempool) (um : Store)
    (numTxsS counter : Nat) :
    (∀ b msg st',
      Api.mineBlock st miner numTxs ts = ((some b, msg), st') →
      ∃ cb : Transaction,
        b.transactions.getLast? = some cb ∧
        cb.inputs = [] ∧
        cb.outputs = [⟨b.totalFees, miner⟩] ∧
        Store.getUtxo st'.utxos (cb.tx_id, 0) = some ⟨b.totalFees, miner⟩) ∧
    (∀ blk m' um' c',
      Sim.mineBlock miner m um numTxsS counter = (some blk, m', um', c') →
      (∀ cb, blk.coinbase = some cb →
        cb.inputs = [] ∧
        cb.outputs = [⟨blk.totalFees, miner⟩] ∧
        Store.getUtxo um' (cb.tx_id, 0) = some ⟨blk.totalFees, miner⟩ ∧
        0 < blk.totalFees) ∧
      (blk.coinbase = none → blk.totalFees = 0)) := by
  constructor
  · intro b msg st' h
    rw [mineBlock_shape] at h
    by_cases hemp : st.mempool.isEmpty
    · rw [if_pos hemp] at h
      simp at h
    · rw [if_neg hemp] at h
      by_cases hsel : ((Sim.sortFeeDesc
          (Api.sift st st.mempool).1).take numTxs).isEmpty
      · rw [if_pos hsel] at h
        simp at h
      · rw [if_neg hsel] at h
        simp only [Prod.mk.injEq, Option.some.injEq] at h
        obtain ⟨⟨hb, -⟩, hst⟩ := h
        refine ⟨Api.coinbaseTxOf (Api.sift st st.mempool).2 miner ts
          ((((Sim.sortFeeDesc (Api.sift st st.mempool).1).take
            numTxs).map Prod.snd).sum), ?_, rfl, ?_, ?_⟩
        · rw [← hb]
          show (_ ++ [_] : List Transaction).getLast? = _
          simp
        · rw [← hb]
          rfl
        · rw [← hb, ← hst]
          exact Store.getUtxo_addUtxo_self _ _ _
  · intro blk m' um' c' h
    simp only [Sim.mineBlock] at h
    by_cases hsel : (Sim.getTopTransactions m numTxsS um).isEmpty
    · rw [if_pos hsel] at h
      simp at h
    · rw [if_neg hsel] at h
      by_cases hpos : ((Sim.getTopTransactions m numTxsS um).foldl
          Sim.commitStep (um, 0, [])).2.1 > 0
      · rw [if_pos hpos] at h
        simp only [Prod.mk.injEq, Option.some.injEq] at h
        obtain ⟨hblk, -, hum, -⟩ := h
        constructor
        · intro cb hcb
          rw [← hblk] at hcb
          simp only [Option.some.injEq] at hcb
          rw [← hblk, ← hcb]
          refine ⟨rfl, rfl, ?_, ?_⟩
          · rw [← hum]
            exact Store.getUtxo_addUtxo_self _ _ _
          · exact hpos
        · intro hcb
          rw [← hblk] at hcb
          simp at hcb
      · rw [if_neg hpos] at h
        simp only [Prod.mk.injEq, Option.some.injEq] at h
        obtain ⟨hblk, -⟩ := h
        constructor
        · intro cb hcb
          rw [← hblk] at hcb
          simp at hcb
        · intro hcb
          rw [← hblk]

/-- Witness for C3 (amended) at a concrete successful API mine (one
pending fee-1 transaction): the coinbase UTXO `("coinbase_1_7", 0)` is
minted to the miner with the block's total fees. -/
theorem C3_coinbase_amended_witness :
    Store.getUtxo
        ((⟨[(("t1", 0), ⟨10, "Bob"⟩), (("t1", 1), ⟨39, "Alice"⟩),
            (("coinbase_1_7", 0), ⟨1, "M"⟩)], [],
          [⟨1, "genesis", "M",
            [⟨"t1", [⟨"genesis", 0, "Alice"⟩], [⟨10, "Bob"⟩, ⟨39, "Alice"⟩]⟩,
             ⟨"coinbase_1_7", [], [⟨1, "M"⟩]⟩],
            1, 7, "block_1_M_2_7"⟩]⟩ : Api.ServiceState)).utxos
        ("coinbase_1_7", 0) =
      some ⟨1, "M"⟩ := by
  obtain ⟨cb, h1, h2, h3, h4⟩ :=
    (C3_coinbase_amended
      ⟨[(("genesis", 0), ⟨50, "Alice"⟩)],
       [⟨"t1", [⟨"genesis", 0, "Alice"⟩], [⟨10, "Bob"⟩, ⟨39, "Alice"⟩]⟩],
       []⟩ "M" 5 7 ⟨[], [], 1⟩ [] 0 0).1
      ⟨1, "genesis", "M",
       [⟨"t1", [⟨"genesis", 0, "Alice"⟩], [⟨10, "Bob"⟩, ⟨39, "Alice"⟩]⟩,
        ⟨"coinbase_1_7", [], [⟨1, "M"⟩]⟩],
       1, 7, "block_1_M_2_7"⟩ .mined
      ⟨[(("t1", 0), ⟨10, "Bob"⟩), (("t1", 1), ⟨39, "Alice"⟩),
        (("coinbase_1_7", 0), ⟨1, "M"⟩)], [],
       [⟨1, "genesis", "M",
         [⟨"t1", [⟨"genesis", 0, "Alice"⟩], [⟨10, "Bob"⟩, ⟨39, "Alice"⟩]⟩,
          ⟨"coinbase_1_7", [], [⟨1, "M"⟩]⟩],
         1, 7, "block_1_M_2_7"⟩]⟩ (by decide)
  have hcb : cb = ⟨"coinbase_1_7", [], [⟨1, "M"⟩]⟩ := by
    simp at h1
    exact h1.symm
  rw [hcb] at h4
  exact h4

/-! ## Sift lemmas -/

namespace Api

theorem removeFromMempool_sub (st : ServiceState) (txId : String) :
    ∀ tx ∈ (removeFromMempool st txId).mempool, tx ∈ st.mempool := by
  intro tx htx
  exact (List.mem_filter.1 htx).1

theorem sift_mempool_sub (l : List Transaction) (st : ServiceState) :
    ∀ tx ∈ (sift st l).2.mempool, tx ∈ st.mempool := by
  induction l generalizing st with
  | nil => intro tx htx; exact htx
  | cons x rest ih =>
    intro tx htx
    unfold sift at htx
    cases hv : validateTransaction st x with
    | invalid r =>
      rw [hv] at htx
      exact removeFromMempool_sub st x.tx_id tx
        (ih (removeFromMempool st x.tx_id) tx htx)
    | valid f =>
      rw [hv] at htx
      exact ih st tx htx

theorem sift_chain_utxos (l : List Transaction) (st : ServiceState) :
    (sift st l).2.utxos = st.utxos ∧ (sift st l).2.chain = st.chain := by
  induction l generalizing st with
  | nil => exact ⟨rfl, rfl⟩
  | cons x rest ih =>
    unfold sift
    cases hv : validateTransaction st x with
    | invalid r => exact ih (removeFromMempool st x.tx_id)
    | valid f => exact ih st

theorem sift_fst_sub (l : List Transaction) (st : ServiceState) :
    ∀ tx ∈ ((sift st l).1.map Prod.fst), tx ∈ l := by
  induction l generalizing st with
  | nil => intro tx htx; simp [sift] at htx
  | cons x rest ih =>
    intro tx htx
    unfold sift at htx
    cases hv : validateTransaction st x with
    | invalid r =>
      rw [hv] at htx
      exact List.mem_cons.2 (Or.inr (ih (removeFromMempool st x.tx_id) tx htx))
    | valid f =>
      rw [hv] at htx
      simp only [List.map_cons, List.mem_cons] at htx
      rcases htx with rfl | htx'
      · exact List.mem_cons.2 (Or.inl rfl)
      · exact List.mem_cons.2 (Or.inr (ih st tx htx'))

theorem sift_dropped (l : List Transaction) (st : ServiceState)
    (tx : Transaction) (hmem : tx ∈ l)
    (hfail : tx ∉ (sift st l).1.map Prod.fst) :
    tx ∉ (sift st l).2.mempool := by
  induction l generalizing st with
  | nil => simp at hmem
  | cons x rest ih =>
    cases hv : validateTransaction st x with
    | invalid r =>
      have hs : sift st (x :: rest) =
          sift (removeFromMempool st x.tx_id) rest := by
        simp only [sift]
        rw [hv]
      rw [hs] at hfail ⊢
      rcases List.mem_cons.1 hmem with rfl | hmem2
      · intro hin
        have := sift_mempool_sub rest (removeFromMempool st tx.tx_id) tx hin
        simp [removeFromMempool, List.mem_filter] at this
      · exact ih (removeFromMempool st x.tx_id) hmem2 hfail
    | valid f =>
      have hs : sift st (x :: rest) =
          ((x, Sim.calculateFee x st.utxos) :: (sift st rest).1,
           (sift st rest).2) := by
        simp only [sift]
        rw [hv]
      rw [hs] at hfail ⊢
      rcases List.mem_cons.1 hmem with rfl | hmem2
      · exact absurd
          (List.mem_map_of_mem Prod.fst (List.mem_cons_self _ _)) hfail
      · refine ih st hmem2 (fun hin => hfail ?_)
        rw [List.map_cons]
        exact List.mem_cons.2 (Or.inr hin)

theorem commitAll_mempool_sub (txs : List Transaction)
    (st : ServiceState) :
    ∀ tx ∈ (commitAll st txs).mempool, tx ∈ st.mempool := by
  induction txs generalizing st with
  | nil => intro tx htx; exact htx
  | cons x rest ih =>
    intro tx htx
    unfold commitAll at htx
    rw [List.foldl_cons] at htx
    have := ih (commitTx st x) tx htx
    unfold commitTx at this
    exact (List.mem_filter.1 this).1

end Api

/-! ## C2 — re-validation during mining -/

/-- Counterexample to C2 as stated: the src miner
(`block.py mine_block`) performs no re-validation at all.  With a
pending transaction whose input UTXO does not exist (it fails
re-validation with `MissingUtxo`), the src miner still selects it,
mines it into the returned block, and even mints its outputs; and its
only empty-selection message does not distinguish the two cases. -/
theorem C2_revalidation_cex :
    Sim.validateTransaction ⟨"t", [⟨"nope", 0, "x"⟩], [⟨5, "y"⟩]⟩
        [(("g", 0), ⟨10, "x"⟩)]
        (some ⟨[⟨"t", [⟨"nope", 0, "x"⟩], [⟨5, "y"⟩]⟩], [("nope", 0)], 50⟩) =
      .invalid (.missingUtxo ("nope", 0)) ∧
    (Sim.mineBlock "M" ⟨[⟨"t", [⟨"nope", 0, "x"⟩], [⟨5, "y"⟩]⟩],
        [("nope", 0)], 50⟩ [(("g", 0), ⟨10, "x"⟩)] 5 0).1 =
      some ⟨1, "0", "M", [⟨"t", [⟨"nope", 0, "x"⟩], [⟨5, "y"⟩]⟩], 0, none⟩ := by
  decide

/-- C2 (amended): in the API service's `mine_block`, every pending
transaction that fails re-validation against the current state is
removed from the mempool at once and never selected: an empty mempool
returns the `emptyMempool` message, a mempool whose every transaction
failed re-validation returns the distinct `noValidTransactions` message
(with the failures already removed), and a mined block's non-coinbase
transactions all come from the re-validation survivors.  The src miner
performs no re-validation (see the counterexample). -/
theorem C2_revalidation_amended (st : Api.ServiceState) (miner : String)
    (numTxs ts : Nat) :
    (st.mempool = [] →
      Api.mineBlock st miner numTxs ts = ((none, .emptyMempool), st)) ∧
    (st.mempool ≠ [] → (Api.sift st st.mempool).1 = [] →
      Api.mineBlock st miner numTxs ts =
        ((none, .noValidTransactions), (Api.sift st st.mempool).2)) ∧
    (∀ tx ∈ st.mempool, tx ∉ (Api.sift st st.mempool).1.map Prod.fst →
      tx ∉ (Api.sift st st.mempool).2.mempool) ∧
    (∀ b msg st', Api.mineBlock st miner numTxs ts = ((some b, msg), st') →
      (∀ tx ∈ b.bodyTxs, tx ∈ (Api.sift st st.mempool).1.map Prod.fst) ∧
      (∀ tx ∈ st.mempool, tx ∉ (Api.sift st st.mempool).1.map Prod.fst →
        tx ∉ st'.mempool)) ∧
    Api.MineMsg.emptyMempool ≠ Api.MineMsg.noValidTransactions := by
  refine ⟨?_, ?_, ?_, ?_, by simp⟩
  · intro hemp
    rw [mineBlock_shape, if_pos (by simp [hemp])]
  · intro hne hpairs
    rw [mineBlock_shape, if_neg (by simpa using hne)]
    rw [hpairs]
    rw [if_pos (by simp [Sim.sortFeeDesc])]
  · intro tx htx hfail
    exact Api.sift_dropped st.mempool st tx htx hfail
  · intro b msg st' h
    rw [mineBlock_shape] at h
    by_cases hemp : st.mempool.isEmpty
    · rw [if_pos hemp] at h
      simp at h
    · rw [if_neg hemp] at h
      by_cases hsel : ((Sim.sortFeeDesc
          (Api.sift st st.mempool).1).take numTxs).isEmpty
      · rw [if_pos hsel] at h
        simp at h
      · rw [if_neg hsel] at h
        simp only [Prod.mk.injEq, Option.some.injEq] at h
        obtain ⟨⟨hb, -⟩, hst⟩ := h
        constructor
        · intro tx htx
          rw [← hb] at htx
          unfold Api.BlockModel.bodyTxs Api.mkBlockOf at htx
          simp only [List.dropLast_concat] at htx
          obtain ⟨p, hp, rfl⟩ := List.mem_map.1 htx
          have hp2 : p ∈ Sim.sortFeeDesc (Api.sift st st.mempool).1 :=
            (List.take_sublist numTxs _).subset hp
          have hp3 : p ∈ (Api.sift st st.mempool).1 :=
            (Sim.mem_sortFeeDesc _ _).1 hp2
          exact List.mem_map_of_mem Prod.fst hp3
        · intro tx htx hfail
          have hdropped := Api.sift_dropped st.mempool st tx htx hfail
          intro hin
          rw [← hst] at hin
          have : tx ∈ (Api.commitAll (Api.sift st st.mempool).2
              (((Sim.sortFeeDesc (Api.sift st st.mempool).1).take
                numTxs).map Prod.fst)).mempool := hin
          exact hdropped (Api.commitAll_mempool_sub _ _ tx this)

/-- Witness for C2 (amended): the empty mempool yields the
`emptyMempool` message, and a concrete pending transaction with a
missing input is dropped from the mempool by the re-validation pass. -/
theorem C2_revalidation_amended_witness :
    Api.mineBlock ⟨[], [], []⟩ "M" 5 0 =
        ((none, .emptyMempool), ⟨[], [], []⟩) ∧
    (⟨"bad", [⟨"nope", 0, "x"⟩], [⟨5, "y"⟩]⟩ : Transaction) ∉
      (Api.sift ⟨[], [⟨"bad", [⟨"nope", 0, "x"⟩], [⟨5, "y"⟩]⟩], []⟩
        [⟨"bad", [⟨"nope", 0, "x"⟩], [⟨5, "y"⟩]⟩]).2.mempool :=
  ⟨(C2_revalidation_amended ⟨[], [], []⟩ "M" 5 0).1 rfl,
   (C2_revalidation_amended
      ⟨[], [⟨"bad", [⟨"nope", 0, "x"⟩], [⟨5, "y"⟩]⟩], []⟩ "M" 5 0).2.2.1
     ⟨"bad", [⟨"nope", 0, "x"⟩], [⟨5, "y"⟩]⟩ (by decide) (by decide)⟩

/-! ## Burn/mint lemmas for the commit loops -/

namespace Store

theorem foldRemove_getUtxo (inputs : List TxInput) (s : Store) (k : Key)
    (hk : ∀ i ∈ inputs, i.key ≠ k) :
    getUtxo (inputs.foldl (fun s i => removeUtxo s i.key) s) k =
      getUtxo s k := by
  induction inputs generalizing s with
  | nil => rfl
  | cons i rest ih =>
    rw [List.foldl_cons]
    rw [ih (removeUtxo s i.key) (fun j hj => hk j (List.mem_cons.2 (Or.inr hj)))]
    exact getUtxo_removeUtxo_ne s i.key k
      (fun hh => hk i (List.mem_cons.2 (Or.inl rfl)) hh.symm)

theorem foldRemove_WFKeys (inputs : List TxInput) (s : Store)
    (h : WFKeys s) :
    WFKeys (inputs.foldl (fun s i => removeUtxo s i.key) s) := by
  induction inputs generalizing s with
  | nil => exact h
  | cons i rest ih =>
    rw [List.foldl_cons]
    exact ih (removeUtxo s i.key) (WFKeys_removeUtxo s i.key h)

theorem foldRemove_keys_sub (inputs : List TxInput) (s : Store) :
    ∀ k ∈ keys (inputs.foldl (fun s i => removeUtxo s i.key) s),
      k ∈ keys s := by
  induction inputs generalizing s with
  | nil => intro k hk; exact hk
  | cons i rest ih =>
    intro k hk
    rw [List.foldl_cons] at hk
    have hkr := ih (removeUtxo s i.key) k hk
    simp only [keys, removeUtxo] at hkr
    rcases List.mem_map.1 hkr with ⟨e, he, rfl⟩
    exact List.mem_map_of_mem Prod.fst (List.mem_of_mem_filter he)

theorem foldRemove_sum (inputs : List TxInput) (s : Store)
    (hwf : WFKeys s)
    (hnd : (inputs.map TxInput.key).Nodup)
    (hex : ∀ i ∈ inputs, (getUtxo s i.key).isSome) :
    utxoSum (inputs.foldl (fun s i => removeUtxo s i.key) s) =
      utxoSum s -
        (inputs.map
          (fun i => ((getUtxo s i.key).map UTXOData.amount).getD 0)).sum := by
  induction inputs generalizing s with
  | nil => simp
  | cons i rest ih =>
    rw [List.foldl_cons, List.map_cons, List.sum_cons]
    rw [List.map_cons, List.nodup_cons] at hnd
    have hs' : WFKeys (removeUtxo s i.key) := WFKeys_removeUtxo s i.key hwf
    have hex' : ∀ j ∈ rest, (getUtxo (removeUtxo s i.key) j.key).isSome := by
      intro j hj
      rw [getUtxo_removeUtxo_ne s i.key j.key
        (fun hh => hnd.1 (hh ▸ List.mem_map_of_mem TxInput.key hj))]
      exact hex j (List.mem_cons.2 (Or.inr hj))
    rw [ih (removeUtxo s i.key) hs' hnd.2 hex']
    rw [utxoSum_removeUtxo s i.key hwf]
    have hmapeq : rest.map
        (fun j => ((getUtxo (removeUtxo s i.key) j.key).map
          UTXOData.amount).getD 0) =
        rest.map
          (fun j => ((getUtxo s j.key).map UTXOData.amount).getD 0) := by
      apply List.map_congr_left
      intro j hj
      rw [getUtxo_removeUtxo_ne s i.key j.key
        (fun hh => hnd.1 (hh ▸ List.mem_map_of_mem TxInput.key hj))]
    rw [hmapeq]
    ring

theorem foldAdd_getUtxo (ol : List (Nat × TxOutput)) (txid : String)
    (s : Store) (k : Key) (hk : k.1 ≠ txid) :
    getUtxo (ol.foldl
        (fun s oi => addUtxo s (txid, oi.1) ⟨oi.2.amount, oi.2.address⟩) s)
        k =
      getUtxo s k := by
  induction ol generalizing s with
  | nil => rfl
  | cons oi rest ih =>
    rw [List.foldl_cons, ih]
    exact getUtxo_addUtxo_ne s (txid, oi.1) k _
      (fun hh => hk (by rw [hh]))

theorem foldAdd_WFKeys (ol : List (Nat × TxOutput)) (txid : String)
    (s : Store) (h : WFKeys s) :
    WFKeys (ol.foldl
      (fun s oi => addUtxo s (txid, oi.1) ⟨oi.2.amount, oi.2.address⟩) s) := by
  induction ol generalizing s with
  | nil => exact h
  | cons oi rest ih =>
    rw [List.foldl_cons]
    exact ih _ (WFKeys_addUtxo s (txid, oi.1) _ h)

theorem foldAdd_keys (ol : List (Nat × TxOutput)) (txid : String)
    (s : Store) :
    ∀ k ∈ keys (ol.foldl
        (fun s oi => addUtxo s (txid, oi.1) ⟨oi.2.amount, oi.2.address⟩) s),
      k ∈ keys s ∨ k.1 = txid := by
  induction ol generalizing s with
  | nil => intro k hk; exact Or.inl hk
  | cons oi rest ih =>
    intro k hk
    rw [List.foldl_cons] at hk
    rcases ih _ k hk with hmem | hid
    · rcases (mem_keys_addUtxo s (txid, oi.1) k _).1 hmem with rfl | hmem'
      · exact Or.inr rfl
      · exact Or.inl hmem'
    · exact Or.inr hid

theorem foldAdd_sum (ol : List (Nat × TxOutput)) (txid : String)
    (s : Store) (hnd : (ol.map Prod.fst).Nodup)
    (hfresh : ∀ oi ∈ ol, (txid, oi.1) ∉ keys s) :
    utxoSum (ol.foldl
        (fun s oi => addUtxo s (txid, oi.1) ⟨oi.2.amount, oi.2.address⟩) s) =
      utxoSum s + (ol.map (fun oi => oi.2.amount)).sum := by
  induction ol generalizing s with
  | nil => simp
  | cons oi rest ih =>
    rw [List.foldl_cons, List.map_cons, List.sum_cons]
    rw [List.map_cons, List.nodup_cons] at hnd
    have hfresh0 : getUtxo s (txid, oi.1) = none :=
      (getUtxo_eq_none_iff s (txid, oi.1)).2
        (hfresh oi (List.mem_cons.2 (Or.inl rfl)))
    have hfresh' : ∀ oj ∈ rest,
        (txid, oj.1) ∉ keys (addUtxo s (txid, oi.1) ⟨oi.2.amount, oi.2.address⟩) := by
      intro oj hoj hin
      rcases (mem_keys_addUtxo s (txid, oi.1) (txid, oj.1) _).1 hin with heq | hmem
      · exact hnd.1 (by
          have : oj.1 = oi.1 := by
            simpa using congrArg Prod.snd heq
          rw [← this]
          exact List.mem_map_of_mem Prod.fst hoj)
      · exact hfresh oj (List.mem_cons.2 (Or.inr hoj)) hmem
    rw [ih _ hnd.2 hfresh']
    rw [utxoSum_addUtxo_fresh s _ _ hfresh0]
    ring

end Store

/-! ## Conservation through the API miner (C1 machinery) -/

namespace Sim

theorem calculateFee_of_all_exist (tx : Transaction) (um : Store)
    (hex : ∀ i ∈ tx.inputs, (Store.getUtxo um i.key).isSome = true) :
    calculateFee tx um = specTotalInput um tx.inputs - totalOutput tx := by
  unfold calculateFee
  rw [foldAddExisting um tx.inputs 0]
  have hfe : tx.inputs.filter (fun i => Store.existsUtxo um i.key) =
      tx.inputs :=
    List.filter_eq_self.2
      (fun i hi => by simpa [Store.existsUtxo] using hex i hi)
  rw [hfe, zero_add]
  rfl

end Sim

namespace Api

theorem removeFromMempool_sublist (st : ServiceState) (txId : String) :
    (removeFromMempool st txId).mempool.Sublist st.mempool :=
  List.filter_sublist st.mempool

theorem sift_mempool_sublist (l : List Transaction) (st : ServiceState) :
    (sift st l).2.mempool.Sublist st.mempool := by
  induction l generalizing st with
  | nil => exact List.Sublist.refl _
  | cons x rest ih =>
    unfold sift
    cases hv : validateTransaction st x with
    | invalid r =>
      exact (ih (removeFromMempool st x.tx_id)).trans
        (removeFromMempool_sublist st x.tx_id)
    | valid f => exact ih st

theorem sift_fst_sublist (l : List Transaction) (st : ServiceState) :
    ((sift st l).1.map Prod.fst).Sublist l := by
  induction l generalizing st with
  | nil => simp [sift]
  | cons x rest ih =>
    unfold sift
    cases hv : validateTransaction st x with
    | invalid r =>
      exact List.Sublist.cons x (ih (removeFromMempool st x.tx_id))
    | valid f =>
      exact List.Sublist.cons₂ x (ih st)

theorem sift_valid_props (l : List Transaction) (st : ServiceState) :
    ∀ p ∈ (sift st l).1,
      p.1.inputKeys.Nodup ∧
        (∀ i ∈ p.1.inputs,
          (Store.getUtxo st.utxos i.key).isSome = true) ∧
        p.2 = Sim.calculateFee p.1 st.utxos := by
  induction l generalizing st with
  | nil => intro p hp; simp [sift] at hp
  | cons x rest ih =>
    intro p hp
    unfold sift at hp
    cases hv : validateTransaction st x with
    | invalid r =>
      rw [hv] at hp
      exact ih (removeFromMempool st x.tx_id) p hp
    | valid f =>
      rw [hv] at hp
      rcases List.mem_cons.1 hp with rfl | hp'
      · have hv' : Sim.validateCore x st.utxos (spentByOthers st x.tx_id)
            (fun _ => none) = .valid f := hv
        have hiff := (Sim.validateCore_valid_iff x st.utxos
          (spentByOthers st x.tx_id) (fun _ => none) f).1 hv'
        refine ⟨hiff.2.1, ?_, rfl⟩
        intro i hi
        have hbad := hiff.2.2.1 i hi
        unfold Sim.badInput at hbad
        cases hg : Store.getUtxo st.utxos i.key with
        | none => rw [hg] at hbad; simp at hbad
        | some u => simp [hg]
      · exact ih st p hp'

theorem commitAll_utxos (txs : List Transaction) (st : ServiceState) :
    (commitAll st txs).utxos =
      txs.foldl
        (fun s tx => Store.mintOutputs (Store.burnInputs s tx) tx)
        st.utxos := by
  induction txs generalizing st with
  | nil => rfl
  | cons x rest ih =>
    unfold commitAll at ih ⊢
    rw [List.foldl_cons, List.foldl_cons]
    exact ih (commitTx st x)

theorem commitAll_chain (txs : List Transaction) (st : ServiceState) :
    (commitAll st txs).chain = st.chain := by
  induction txs generalizing st with
  | nil => rfl
  | cons x rest ih =>
    unfold commitAll at ih ⊢
    rw [List.foldl_cons]
    exact ih (commitTx st x)

theorem commitTx_mempool_sublist (st : ServiceState) (tx : Transaction) :
    (commitTx st tx).mempool.Sublist st.mempool :=
  List.filter_sublist st.mempool

theorem commitAll_mempool_sublist (txs : List Transaction)
    (st : ServiceState) :
    (commitAll st txs).mempool.Sublist st.mempool := by
  induction txs generalizing st with
  | nil => exact List.Sublist.refl _
  | cons x rest ih =>
    unfold commitAll at ih ⊢
    rw [List.foldl_cons]
    exact (ih (commitTx st x)).trans (commitTx_mempool_sublist st x)

theorem mineBlock_mempool_sublist (st : ServiceState) (miner : String)
    (numTxs ts : Nat) :
    (mineBlock st miner numTxs ts).2.mempool.Sublist st.mempool := by
  rw [mineBlock_shape]
  by_cases h1 : st.mempool.isEmpty
  · rw [if_pos h1]
  · rw [if_neg h1]
    by_cases h2 :
        ((Sim.sortFeeDesc (sift st st.mempool).1).take numTxs).isEmpty
    · rw [if_pos h2]
      exact sift_mempool_sublist st.mempool st
    · rw [if_neg h2]
      exact (commitAll_mempool_sublist _ _).trans
        (sift_mempool_sublist st.mempool st)

end Api

/-- The store effect of the miner's commit loop over transactions whose
inputs all exist in the reference store `st0` and agree there with the
working store `s`, and whose ids are fresh for `s` and pairwise
distinct: the dict stays well-formed, every key is an old key or bears a
committed id, and the total amount drops by exactly the sum of the
fees. -/
theorem commitFold_conserves (txs : List Transaction) (s st0 : Store)
    (hwf : Store.WFKeys s)
    (hagree : ∀ tx ∈ txs, ∀ i ∈ tx.inputs,
      Store.getUtxo s i.key = Store.getUtxo st0 i.key)
    (hex : ∀ tx ∈ txs, ∀ i ∈ tx.inputs,
      (Store.getUtxo st0 i.key).isSome = true)
    (hnd : ∀ tx ∈ txs, tx.inputKeys.Nodup)
    (hfreshout : ∀ tx ∈ txs, ∀ k ∈ Store.keys s, k.1 ≠ tx.tx_id)
    (hdisj : txs.Pairwise (fun a b => ∀ k ∈ a.inputKeys, k ∉ b.inputKeys))
    (hids : (txs.map Transaction.tx_id).Nodup) :
    Store.WFKeys
        (txs.foldl
          (fun s tx => Store.mintOutputs (Store.burnInputs s tx) tx) s) ∧
      (∀ k ∈ Store.keys
          (txs.foldl
            (fun s tx => Store.mintOutputs (Store.burnInputs s tx) tx) s),
        k ∈ Store.keys s ∨ k.1 ∈ txs.map Transaction.tx_id) ∧
      Store.utxoSum
          (txs.foldl
            (fun s tx => Store.mintOutputs (Store.burnInputs s tx) tx) s) =
        Store.utxoSum s -
          (txs.map (fun tx => Sim.calculateFee tx st0)).sum := by
  induction txs generalizing s with
  | nil => exact ⟨hwf, fun k hk => Or.inl hk, by simp⟩
  | cons tx rest ih =>
    have hfoldeq : (tx :: rest).foldl
        (fun s tx => Store.mintOutputs (Store.burnInputs s tx) tx) s =
      rest.foldl (fun s tx => Store.mintOutputs (Store.burnInputs s tx) tx)
        (Store.mintOutputs (Store.burnInputs s tx) tx) := rfl
    rw [hfoldeq]
    have hdisj_head : ∀ b ∈ rest, ∀ k ∈ tx.inputKeys, k ∉ b.inputKeys :=
      (List.pairwise_cons.1 hdisj).1
    rw [List.map_cons, List.nodup_cons] at hids
    -- input keys of `tx` are present in `s`
    have hinkeys : ∀ i ∈ tx.inputs, i.key ∈ Store.keys s := by
      intro i hi
      by_contra hnot
      have hn := (Store.getUtxo_eq_none_iff s i.key).2 hnot
      rw [hagree tx (List.mem_cons_self tx rest) i hi] at hn
      have hxx := hex tx (List.mem_cons_self tx rest) i hi
      rw [hn] at hxx
      simp at hxx
    have hb_wf : Store.WFKeys (Store.burnInputs s tx) :=
      Store.foldRemove_WFKeys tx.inputs s hwf
    have hb_keys : ∀ k ∈ Store.keys (Store.burnInputs s tx),
        k ∈ Store.keys s :=
      Store.foldRemove_keys_sub tx.inputs s
    have hm_wf : Store.WFKeys
        (Store.mintOutputs (Store.burnInputs s tx) tx) :=
      Store.foldAdd_WFKeys tx.outputs.enum tx.tx_id _ hb_wf
    have hm_keys : ∀ k ∈ Store.keys
          (Store.mintOutputs (Store.burnInputs s tx) tx),
        k ∈ Store.keys s ∨ k.1 = tx.tx_id := by
      intro k hk
      rcases Store.foldAdd_keys tx.outputs.enum tx.tx_id _ k hk with hin | hid
      · exact Or.inl (hb_keys k hin)
      · exact Or.inr hid
    -- getUtxo on later transactions' input keys is untouched
    have hget_pres : ∀ p ∈ rest, ∀ i ∈ p.inputs,
        Store.getUtxo (Store.mintOutputs (Store.burnInputs s tx) tx) i.key =
          Store.getUtxo s i.key := by
      intro p hp i hi
      have hk_mem : i.key ∈ Store.keys s := by
        by_contra hnot
        have hn := (Store.getUtxo_eq_none_iff s i.key).2 hnot
        rw [hagree p (List.mem_cons.2 (Or.inr hp)) i hi] at hn
        have hxx := hex p (List.mem_cons.2 (Or.inr hp)) i hi
        rw [hn] at hxx
        simp at hxx
      have h1 : i.key.1 ≠ tx.tx_id :=
        hfreshout tx (List.mem_cons_self tx rest) i.key hk_mem
      have h2 : ∀ j ∈ tx.inputs, j.key ≠ i.key := by
        intro j hj heq
        have hkin : i.key ∈ tx.inputKeys := by
          rw [← heq]
          exact List.mem_map_of_mem TxInput.key hj
        exact hdisj_head p hp i.key hkin (List.mem_map_of_mem TxInput.key hi)
      calc Store.getUtxo
            (Store.mintOutputs (Store.burnInputs s tx) tx) i.key
          = Store.getUtxo (Store.burnInputs s tx) i.key :=
            Store.foldAdd_getUtxo tx.outputs.enum tx.tx_id _ i.key h1
        _ = Store.getUtxo s i.key :=
            Store.foldRemove_getUtxo tx.inputs s i.key h2
    -- apply the induction hypothesis at the committed store
    have hih := ih (Store.mintOutputs (Store.burnInputs s tx) tx) hm_wf
      (by
        intro p hp i hi
        rw [hget_pres p hp i hi]
        exact hagree p (List.mem_cons.2 (Or.inr hp)) i hi)
      (fun p hp i hi => hex p (List.mem_cons.2 (Or.inr hp)) i hi)
      (fun p hp => hnd p (List.mem_cons.2 (Or.inr hp)))
      (by
        intro p hp k hk
        rcases hm_keys k hk with hin | hid
        · exact hfreshout p (List.mem_cons.2 (Or.inr hp)) k hin
        · rw [hid]
          intro heq
          exact hids.1 (heq ▸ List.mem_map_of_mem Transaction.tx_id hp))
      (List.pairwise_cons.1 hdisj).2
      hids.2
    refine ⟨hih.1, ?_, ?_⟩
    · intro k hk
      rcases hih.2.1 k hk with hin | hid
      · rcases hm_keys k hin with hs | hid'
        · exact Or.inl hs
        · exact Or.inr (by rw [List.map_cons]; exact List.mem_cons.2 (Or.inl hid'))
      · exact Or.inr (by rw [List.map_cons]; exact List.mem_cons.2 (Or.inr hid))
    · -- the sum equation
      have hex_s : ∀ i ∈ tx.inputs,
          (Store.getUtxo s i.key).isSome = true := by
        intro i hi
        rw [hagree tx (List.mem_cons_self tx rest) i hi]
        exact hex tx (List.mem_cons_self tx rest) i hi
      have hburn_sum : Store.utxoSum (Store.burnInputs s tx) =
          Store.utxoSum s -
            (tx.inputs.map
              (fun i =>
                ((Store.getUtxo s i.key).map UTXOData.amount).getD 0)).sum :=
        Store.foldRemove_sum tx.inputs s hwf
          (hnd tx (List.mem_cons_self tx rest)) hex_s
      have hburn_st0 : (tx.inputs.map
            (fun i =>
              ((Store.getUtxo s i.key).map UTXOData.amount).getD 0)).sum =
          Sim.specTotalInput st0 tx.inputs := by
        unfold Sim.specTotalInput
        congr 1
        apply List.map_congr_left
        intro i hi
        rw [hagree tx (List.mem_cons_self tx rest) i hi]
      have hmint_fresh : ∀ oi ∈ tx.outputs.enum,
          (tx.tx_id, oi.1) ∉ Store.keys (Store.burnInputs s tx) := by
        intro oi _ hin
        exact hfreshout tx (List.mem_cons_self tx rest) (tx.tx_id, oi.1)
          (hb_keys _ hin) rfl
      have hmint_nd : (tx.outputs.enum.map Prod.fst).Nodup := by
        rw [List.enum_map_fst]
        exact List.nodup_range _
      have hmint_sum : Store.utxoSum
            (Store.mintOutputs (Store.burnInputs s tx) tx) =
          Store.utxoSum (Store.burnInputs s tx) +
            (tx.outputs.enum.map (fun oi => oi.2.amount)).sum :=
        Store.foldAdd_sum tx.outputs.enum tx.tx_id _ hmint_nd hmint_fresh
      have hout : (tx.outputs.enum.map (fun oi => oi.2.amount)).sum =
          Sim.totalOutput tx := by
        have h1 : tx.outputs.enum.map (fun oi : Nat × TxOutput => oi.2.amount) =
            (tx.outputs.enum.map Prod.snd).map TxOutput.amount := by
          rw [List.map_map]
          rfl
        rw [h1, List.enum_map_snd]
        rfl
      have hfee : Sim.calculateFee tx st0 =
          Sim.specTotalInput st0 tx.inputs - Sim.totalOutput tx :=
        Sim.calculateFee_of_all_exist tx st0
          (hex tx (List.mem_cons_self tx rest))
      rw [hih.2.2, hmint_sum, hburn_sum, hburn_st0, hout, List.map_cons,
        List.sum_cons, hfee]
      ring

namespace Api

/-- A successful-or-not mine call conserves the total stored amount:
the fee deficit destroyed by committing the selected transactions is
re-minted in full as the coinbase output. -/
theorem mineBlock_conserves (st : ServiceState) (miner : String)
    (numTxs ts : Nat) (hok : mineOk st ts = true)
    (hdisj : st.mempool.Pairwise
      (fun a b => ∀ k ∈ a.inputKeys, k ∉ b.inputKeys)) :
    Store.utxoSum (mineBlock st miner numTxs ts).2.utxos =
      Store.utxoSum st.utxos := by
  unfold mineOk at hok
  simp only [Bool.and_eq_true, decide_eq_true_eq, List.all_eq_true] at hok
  obtain ⟨⟨⟨⟨hwf, hndids⟩, hfreshstore⟩, hcbstore⟩, hcbmp⟩ := hok
  rw [mineBlock_shape]
  by_cases h1 : st.mempool.isEmpty
  · rw [if_pos h1]
  · rw [if_neg h1]
    have hchain := sift_chain_utxos st.mempool st
    by_cases h2 :
        ((Sim.sortFeeDesc (sift st st.mempool).1).take numTxs).isEmpty
    · rw [if_pos h2]
      exact congrArg Store.utxoSum hchain.1
    · rw [if_neg h2]
      -- abbreviations
      set L := (sift st st.mempool).1 with hL
      set selected := (Sim.sortFeeDesc L).take numTxs with hsel
      set selectedTxs := selected.map Prod.fst with hselTxs
      set totalFees := (selected.map Prod.snd).sum with htot
      -- membership facts
      have hmemL : ∀ p ∈ selected, p ∈ L := by
        intro p hp
        exact (Sim.mem_sortFeeDesc p L).1 (List.mem_of_mem_take hp)
      have hprops := sift_valid_props st.mempool st
      have hmemtx : ∀ tx ∈ selectedTxs, tx ∈ st.mempool := by
        intro tx htx
        rcases List.mem_map.1 htx with ⟨p, hp, rfl⟩
        exact sift_fst_sub st.mempool st p.1
          (List.mem_map_of_mem Prod.fst (hmemL p hp))
      -- distinct ids among the selected transactions
      have hidsnd : (selectedTxs.map Transaction.tx_id).Nodup := by
        have hbase : ((L.map Prod.fst).map Transaction.tx_id).Nodup :=
          List.Nodup.sublist
            (List.Sublist.map Transaction.tx_id (sift_fst_sublist st.mempool st))
            hndids
        have hperm : (((Sim.sortFeeDesc L).map Prod.fst).map
            Transaction.tx_id).Perm ((L.map Prod.fst).map Transaction.tx_id) :=
          ((Sim.sortFeeDesc_perm L).map Prod.fst).map Transaction.tx_id
        have hsorted : (((Sim.sortFeeDesc L).map Prod.fst).map
            Transaction.tx_id).Nodup := hperm.nodup_iff.2 hbase
        exact List.Nodup.sublist
          (List.Sublist.map Transaction.tx_id
            (List.Sublist.map Prod.fst (List.take_sublist numTxs _)))
          hsorted
      -- pairwise-disjoint input keys among the selected transactions
      have hsymm : ∀ {x y : Transaction},
          (∀ k ∈ x.inputKeys, k ∉ y.inputKeys) →
            ∀ k ∈ y.inputKeys, k ∉ x.inputKeys := by
        intro x y h k hky hkx
        exact h k hkx hky
      have hdisjsel : selectedTxs.Pairwise
          (fun a b => ∀ k ∈ a.inputKeys, k ∉ b.inputKeys) := by
        have hP2 : (L.map Prod.fst).Pairwise
            (fun a b => ∀ k ∈ a.inputKeys, k ∉ b.inputKeys) :=
          List.Pairwise.sublist (sift_fst_sublist st.mempool st) hdisj
        have hP3 : ((Sim.sortFeeDesc L).map Prod.fst).Pairwise
            (fun a b => ∀ k ∈ a.inputKeys, k ∉ b.inputKeys) :=
          (List.Perm.pairwise_iff hsymm
            ((Sim.sortFeeDesc_perm L).map Prod.fst)).2 hP2
        exact List.Pairwise.sublist
          (List.Sublist.map Prod.fst (List.take_sublist numTxs _)) hP3
      -- output-id freshness against the current store
      have hfreshout : ∀ tx ∈ selectedTxs, ∀ k ∈ Store.keys st.utxos,
          k.1 ≠ tx.tx_id := by
        intro tx htx k hk
        rcases List.mem_map.1 hk with ⟨e, he, rfl⟩
        exact hfreshstore tx (hmemtx tx htx) e he
      -- per-transaction validity facts
      have hex' : ∀ tx ∈ selectedTxs, ∀ i ∈ tx.inputs,
          (Store.getUtxo st.utxos i.key).isSome = true := by
        intro tx htx i hi
        rcases List.mem_map.1 htx with ⟨p, hp, rfl⟩
        exact (hprops p (hmemL p hp)).2.1 i hi
      have hnd' : ∀ tx ∈ selectedTxs, tx.inputKeys.Nodup := by
        intro tx htx
        rcases List.mem_map.1 htx with ⟨p, hp, rfl⟩
        exact (hprops p (hmemL p hp)).1
      -- the commit fold
      have hfold := commitFold_conserves selectedTxs st.utxos st.utxos hwf
        (fun _ _ _ _ => rfl) hex' hnd' hfreshout hdisjsel hidsnd
      have hcommit : (commitAll (sift st st.mempool).2 selectedTxs).utxos =
          selectedTxs.foldl
            (fun s tx => Store.mintOutputs (Store.burnInputs s tx) tx)
            st.utxos := by
        rw [commitAll_utxos, hchain.1]
      -- total fees of the selection
      have hfees : totalFees =
          (selectedTxs.map (fun tx => Sim.calculateFee tx st.utxos)).sum := by
        rw [htot, hselTxs, List.map_map]
        congr 1
        apply List.map_congr_left
        intro p hp
        exact (hprops p (hmemL p hp)).2.2
      -- the coinbase key is fresh in the committed store
      have hcbid : coinbaseId (sift st st.mempool).2 ts = coinbaseId st ts := by
        unfold coinbaseId getBlockchain
        rw [hchain.2]
      have hcbfresh : Store.getUtxo
          (selectedTxs.foldl
            (fun s tx => Store.mintOutputs (Store.burnInputs s tx) tx)
            st.utxos)
          (coinbaseId (sift st st.mempool).2 ts, 0) = none := by
        rw [Store.getUtxo_eq_none_iff]
        intro hmem
        rcases hfold.2.1 _ hmem with hin | hid
        · rcases List.mem_map.1 hin with ⟨e, he, heq⟩
          have := hcbstore e he
          rw [show e.1.1 = coinbaseId (sift st st.mempool).2 ts from
            congrArg Prod.fst heq] at this
          exact this hcbid
        · rcases List.mem_map.1 hid with ⟨tx, htx, heq⟩
          have := hcbmp tx (hmemtx tx htx)
          rw [heq] at this
          exact this hcbid
      -- assemble
      have hgoal : Store.utxoSum
          (Store.addUtxo
            (selectedTxs.foldl
              (fun s tx => Store.mintOutputs (Store.burnInputs s tx) tx)
              st.utxos)
            (coinbaseId (sift st st.mempool).2 ts, 0)
            ⟨totalFees, miner⟩) = Store.utxoSum st.utxos := by
        rw [Store.utxoSum_addUtxo_fresh _ _ _ hcbfresh, hfold.2.2, ← hfees]
        ring
      calc Store.utxoSum
            (Store.addUtxo (commitAll (sift st st.mempool).2 selectedTxs).utxos
              ((coinbaseTxOf (sift st st.mempool).2 miner ts totalFees).tx_id, 0)
              ⟨totalFees, miner⟩)
          = Store.utxoSum
            (Store.addUtxo
              (selectedTxs.foldl
                (fun s tx => Store.mintOutputs (Store.burnInputs s tx) tx)
                st.utxos)
              (coinbaseId (sift st st.mempool).2 ts, 0)
              ⟨totalFees, miner⟩) := by rw [hcommit]; rfl
        _ = Store.utxoSum st.utxos := hgoal

end Api

namespace Api

theorem createTransaction_utxos (st : ServiceState)
    (sender recipient : String) (amount fee : ℤ) (freshId : String) :
    (createTransaction st sender recipient amount fee freshId).2.utxos =
      st.utxos := by
  simp only [createTransaction]
  split
  · rfl
  · split
    · rfl
    · rfl

theorem addToMempool_pairwise (st : ServiceState) (tx : Transaction)
    (f : ℤ) (hfresh : ∀ t ∈ st.mempool, t.tx_id ≠ tx.tx_id)
    (hinv : st.mempool.Pairwise
      (fun a b => ∀ k ∈ a.inputKeys, k ∉ b.inputKeys))
    (hv : validateTransaction st tx = .valid f) :
    (addToMempool st tx).mempool.Pairwise
      (fun a b => ∀ k ∈ a.inputKeys, k ∉ b.inputKeys) := by
  have hv' : Sim.validateCore tx st.utxos (spentByOthers st tx.tx_id)
      (fun _ => none) = .valid f := hv
  have hns := ((Sim.validateCore_valid_iff tx st.utxos
    (spentByOthers st tx.tx_id) (fun _ => none) f).1 hv').2.2.2.1
  have hfilter : st.mempool.filter (fun t => t.tx_id ≠ tx.tx_id) =
      st.mempool :=
    List.filter_eq_self.2 (fun t ht => by simpa using hfresh t ht)
  show (st.mempool ++ [tx]).Pairwise _
  rw [List.pairwise_append]
  refine ⟨hinv, by simp, ?_⟩
  intro a ha b hb
  rcases List.mem_singleton.1 hb with rfl
  intro k hka hkb
  rcases List.mem_map.1 hkb with ⟨i, hi, rfl⟩
  apply hns i hi
  unfold spentByOthers
  rw [hfilter]
  exact List.mem_flatMap.2 ⟨a, ha, hka⟩

theorem createTransaction_pairwise (st : ServiceState)
    (sender recipient : String) (amount fee : ℤ) (freshId : String)
    (hfresh : ∀ t ∈ st.mempool, t.tx_id ≠ freshId)
    (hinv : st.mempool.Pairwise
      (fun a b => ∀ k ∈ a.inputKeys, k ∉ b.inputKeys)) :
    (createTransaction st sender recipient amount fee
        freshId).2.mempool.Pairwise
      (fun a b => ∀ k ∈ a.inputKeys, k ∉ b.inputKeys) := by
  simp only [createTransaction]
  split
  · exact hinv
  · split
    next r heq => exact hinv
    next f heq => exact addToMempool_pairwise st _ f hfresh hinv heq

/-- Over any trace whose generated ids are fresh (`execOk`), the total
stored amount is invariant, provided no two pending transactions share
an input key at the start (true in particular of an empty mempool). -/
theorem exec_conserves (ops : List TraceOp) (st : ServiceState)
    (hinv : st.mempool.Pairwise
      (fun a b => ∀ k ∈ a.inputKeys, k ∉ b.inputKeys))
    (hok : execOk st ops = true) :
    Store.utxoSum (exec st ops).utxos = Store.utxoSum st.utxos := by
  induction ops generalizing st with
  | nil => rfl
  | cons op rest ih =>
    rw [show exec st (op :: rest) = exec (execOp st op) rest from rfl]
    unfold execOk at hok
    rw [Bool.and_eq_true] at hok
    cases op with
    | create sender recipient amount fee freshId =>
      have h1 := hok.1
      have hfresh : ∀ t ∈ st.mempool, t.tx_id ≠ freshId := by
        simp only [List.all_eq_true, decide_eq_true_eq] at h1
        exact h1
      have hinv' : (execOp st
          (TraceOp.create sender recipient amount fee freshId)).mempool.Pairwise
            (fun a b => ∀ k ∈ a.inputKeys, k ∉ b.inputKeys) :=
        createTransaction_pairwise st sender recipient amount
          fee freshId hfresh hinv
      rw [ih _ hinv' hok.2]
      exact congrArg Store.utxoSum
        (createTransaction_utxos st sender recipient amount fee freshId)
    | mine miner numTxs ts =>
      have hinv' : (execOp st
          (TraceOp.mine miner numTxs ts)).mempool.Pairwise
            (fun a b => ∀ k ∈ a.inputKeys, k ∉ b.inputKeys) :=
        List.Pairwise.sublist
          (mineBlock_mempool_sublist st miner numTxs ts) hinv
      rw [ih _ hinv' hok.2]
      exact mineBlock_conserves st miner numTxs ts hok.1 hinv

end Api

/-! ## C1 — conservation of the total supply -/

/-- Counterexample to C1 as stated: on the genesis allocation
`[("Alice", 50)]`, one created transfer of 10 with fee 1 followed by one
successful mine leaves `Σ(store) = 50 = Σ(genesis)` while the fees
minted as coinbase sum to 1, so
`Σ(store) ≠ Σ(genesis) + Σ(coinbase fees)`: the miner's commit loop
destroys each fee (burning full inputs, minting smaller outputs) and the
coinbase only re-mints it, leaving the total unchanged rather than
increased. -/
theorem C1_conservation_cex :
    Api.execOk (Api.initGenesis [("Alice", 50)])
        [Api.TraceOp.create "Alice" "Bob" 10 1 "t1",
         Api.TraceOp.mine "Miner" 5 7] = true ∧
      (Api.mineBlock
          (Api.execOp (Api.initGenesis [("Alice", 50)])
            (Api.TraceOp.create "Alice" "Bob" 10 1 "t1"))
          "Miner" 5 7).1.2 = Api.MineMsg.mined ∧
      Api.feesMintedAsCoinbase
          (Api.exec (Api.initGenesis [("Alice", 50)])
            [Api.TraceOp.create "Alice" "Bob" 10 1 "t1",
             Api.TraceOp.mine "Miner" 5 7]) = 1 ∧
      ¬ Store.utxoSum
            (Api.exec (Api.initGenesis [("Alice", 50)])
              [Api.TraceOp.create "Alice" "Bob" 10 1 "t1",
               Api.TraceOp.mine "Miner" 5 7]).utxos =
          Store.utxoSum (Api.initGenesis [("Alice", 50)]).utxos +
            Api.feesMintedAsCoinbase
              (Api.exec (Api.initGenesis [("Alice", 50)])
                [Api.TraceOp.create "Alice" "Bob" 10 1 "t1",
                 Api.TraceOp.mine "Miner" 5 7]) :=
  ⟨by rfl, by rfl, by rfl, by decide⟩

/-- C1 (amended): over every trace of create and mine calls from a
state with an empty mempool, under the id-freshness side conditions
(`execOk`: generated transaction ids are fresh, per call, and the
coinbase id collides with nothing), the sum of all UTXO amounts in the
store after the trace equals the sum at genesis — the fee deficit
destroyed by committing each selected transaction is re-minted in full
as that block's coinbase output, so mining adds nothing to the total
supply. -/
theorem C1_conservation_amended (g : Api.ServiceState)
    (ops : List Api.TraceOp) (hmp : g.mempool = [])
    (hok : Api.execOk g ops = true) :
    Store.utxoSum (Api.exec g ops).utxos = Store.utxoSum g.utxos := by
  apply Api.exec_conserves ops g _ hok
  rw [hmp]
  exact List.Pairwise.nil

/-- Witness for C1 (amended) at the concrete two-step trace used for the
counterexample: the hypotheses hold and the total is conserved. -/
theorem C1_conservation_amended_witness :
    (Api.initGenesis [("Alice", 50)]).mempool = [] ∧
      Api.execOk (Api.initGenesis [("Alice", 50)])
        [Api.TraceOp.create "Alice" "Bob" 10 1 "t1",
         Api.TraceOp.mine "Miner" 5 7] = true ∧
      Store.utxoSum
          (Api.exec (Api.initGenesis [("Alice", 50)])
            [Api.TraceOp.create "Alice" "Bob" 10 1 "t1",
             Api.TraceOp.mine "Miner" 5 7]).utxos =
        Store.utxoSum (Api.initGenesis [("Alice", 50)]).utxos :=
  ⟨rfl, by rfl,
   C1_conservation_amended (Api.initGenesis [("Alice", 50)])
     [Api.TraceOp.create "Alice" "Bob" 10 1 "t1",
      Api.TraceOp.mine "Miner" 5 7] rfl (by rfl)⟩
